import Mathlib

/-!
# Verification of the `unraid-6.12-tailscale` update workflow

Shallow embedding of the Deno update script `update.ts` (and, where two
revisions of the script exist in the repository, the variant here called
`V3`, from the revision whose `fetchSHA256` validates the digest and whose
version comparator pads missing components with 0).

Strings are modelled as Lean `String`/`List Char`; the regular expressions of
the script (`/tailscale_(\d+\.\d+\.\d+)_amd64\.tgz/g`, `/tailscale_(\d+\.\d+\.\d+)_amd64/`,
`/([a-f0-9]\x7b64\x7d)/i`, `/^[a-f0-9]\x7b64\x7d$/i`, `/\s+/`) are embedded as
explicit scanners.  JavaScript numbers obtained from `Number` on digit strings
are modelled as exact naturals (exact for all values below 2^53, which covers
every version component the upstream listing can realistically contain).
Network fetches, file access, the subprocess and the system clock are
modelled as an explicit environment record, and `main` is a pure function
from that environment to the process exit code plus the trace of observable
events (checksum request, config write, build invocation).
-/

set_option maxHeartbeats 1000000

namespace TsUpdate

/-! ## Characters and basic list utilities -/

/-- The double-quote character. -/
def quoteC : Char := Char.ofNat 34

/-- The backslash character. -/
def bslC : Char := Char.ofNat 92

/-- The opening curly-bracket character. -/
def lbraceC : Char := Char.ofNat 123

/-- The closing curly-bracket character. -/
def rbraceC : Char := Char.ofNat 125

/-- Whitespace as used by `trim`/`split(/\s+/)`/JSON (space, tab, LF, CR). -/
def isWsChar (c : Char) : Bool :=
  c = ' ' || c = '\t' || c = '\n' || c = '\r'

/-- `beginsWith p l` holds when `p` is an initial segment of `l`
(the anchored part of a regex literal match). -/
def beginsWith : List Char → List Char → Bool
  | [], _ => true
  | _ :: _, [] => false
  | p :: ps, c :: cs => p = c && beginsWith ps cs

/-- `hasSub sub l`: `sub` occurs contiguously somewhere in `l`
(JavaScript `String.prototype.includes`). -/
def hasSub (sub : List Char) : List Char → Bool
  | [] => beginsWith sub []
  | c :: cs => beginsWith sub (c :: cs) || hasSub sub cs

/-- Maximal leading run of decimal digits and the remainder (greedy `\d+`,
possibly empty). -/
def takeDigits : List Char → List Char × List Char
  | [] => ([], [])
  | c :: cs =>
    if c.isDigit then
      let p := takeDigits cs
      (c :: p.1, p.2)
    else ([], c :: cs)

/-- Split a character list at every occurrence of `sep`
(JavaScript `String.prototype.split` with a single-character separator). -/
def splitOnCharList (sep : Char) : List Char → List (List Char)
  | [] => [[]]
  | c :: cs =>
    if c = sep then [] :: splitOnCharList sep cs
    else
      match splitOnCharList sep cs with
      | [] => [[c]]
      | h :: t => (c :: h) :: t

/-! ## The version-pattern scanners

`update.ts` uses `/tailscale_(\d+\.\d+\.\d+)_amd64\.tgz/g` (listing scrape,
line 80) and `/tailscale_(\d+\.\d+\.\d+)_amd64/` (`extractVersion`, line 197).
Greedy `\d+` followed by a non-digit literal is maximal-munch, so the match
at a position is deterministic. -/

/-- The literal head `tailscale_` of both patterns. -/
def tsLead : List Char := "tailscale_".toList

/-- The literal tail `_amd64` of the `extractVersion` pattern. -/
def amdTail : List Char := "_amd64".toList

/-- The literal tail `_amd64.tgz` of the listing pattern. -/
def tgzTail : List Char := "_amd64.tgz".toList

/-- Match `\d+\.\d+\.\d+` at the head of `l` (maximal munch); returns the
matched characters and the remainder. -/
def matchVersionAt (l : List Char) : Option (List Char × List Char) :=
  match takeDigits l with
  | (d1, r1) =>
    if d1 = [] then none else
    match r1 with
    | [] => none
    | c1 :: r2 =>
      if c1 = '.' then
        match takeDigits r2 with
        | (d2, r3) =>
          if d2 = [] then none else
          match r3 with
          | [] => none
          | c2 :: r4 =>
            if c2 = '.' then
              match takeDigits r4 with
              | (d3, r5) =>
                if d3 = [] then none
                else some (d1 ++ '.' :: d2 ++ '.' :: d3, r5)
            else none
      else none

/-- Match `tailscale_(\d+\.\d+\.\d+)<suffix>` at the head of `l`; returns the
captured version characters and the remainder after the whole match.
`tsLead.length = 10`. -/
def matchAt (suffix l : List Char) : Option (List Char × List Char) :=
  if beginsWith tsLead l then
    match matchVersionAt (l.drop 10) with
    | some (v, r) =>
      if beginsWith suffix r then some (v, r.drop suffix.length) else none
    | none => none
  else none

/-- Leftmost match of the `extractVersion` pattern anywhere in the input
(unanchored `String.prototype.match` without the `g` flag). -/
def findFirstMatch : List Char → Option (List Char)
  | [] => none
  | c :: cs =>
    match matchAt amdTail (c :: cs) with
    | some (v, _) => some v
    | none => findFirstMatch cs

/-- `update.ts` lines 196-199: extract the version from the stored
`tailscaleVersion` identifier; empty string when the pattern does not match. -/
def extractVersion (tailscaleVersion : String) : String :=
  match findFirstMatch tailscaleVersion.toList with
  | some v => String.mk v
  | none => ""

/-- All matches of the listing pattern (`matchAll` with the `g` flag: after a
match the scan resumes at the end of the match).  The fuel argument is an
upper bound on the number of scan steps; every step shortens the list, so
`l.length` steps always suffice. -/
def scanAllAux : Nat → List Char → List (List Char)
  | 0, _ => []
  | _ + 1, [] => []
  | fuel + 1, c :: cs =>
    match matchAt tgzTail (c :: cs) with
    | some (v, rest) => v :: scanAllAux fuel rest
    | none => scanAllAux fuel cs

/-- `update.ts` lines 80-89: the captured version strings of all
`tailscale_X.Y.Z_amd64.tgz` matches in the listing body, in document order. -/
def extractTgzVersions (html : String) : List String :=
  (scanAllAux html.toList.length html.toList).map String.mk

/-! ## Version comparison and selection -/

/-- `Number` on a digit string (exact-integer idealisation of the JS float;
`Number("") = 0` is also matched: the fold of the empty list is `0`). -/
def digitsToNat (l : List Char) : Nat :=
  l.foldl (fun acc c => 10 * acc + (c.toNat - 48)) 0

/-- `v.split('.').map(Number)` of `update.ts` line 94-95. -/
def versionParts (s : String) : List Nat :=
  (splitOnCharList '.' s.toList).map digitsToNat

/-- The `update.ts` comparator loop (lines 97-102): compare component `i`
for `i = 0, 1, 2`.  Out-of-range components are read as `0` here; in the
script every compared string has exactly three components (they are produced
by the `\d+\.\d+\.\d+` capture), so the default is never consulted. -/
def compareParts : Nat → List Nat → List Nat → Ordering
  | 0, _, _ => Ordering.eq
  | k + 1, as, bs =>
    match compare (as.headD 0) (bs.headD 0) with
    | Ordering.eq => compareParts k as.tail bs.tail
    | o => o

/-- `a` sorts no later than `b` under the `update.ts` descending comparator,
i.e. `a` is numerically ≥ `b` on the first three components. -/
def jsGE (a b : String) : Bool :=
  match compareParts 3 (versionParts a) (versionParts b) with
  | Ordering.lt => false
  | _ => true

/-- Insert into a list sorted descending by the comparator. -/
def insertDesc (x : String) : List String → List String
  | [] => [x]
  | y :: ys => if jsGE x y then x :: y :: ys else y :: insertDesc x ys

/-- Sort descending by the comparator (the script's `Array.prototype.sort`
with the `b - a` comparator; any sorted permutation models it). -/
def sortDesc : List String → List String
  | [] => []
  | x :: xs => insertDesc x (sortDesc xs)

/-- Compare the components `as` against an exhausted right-hand side (each
missing right component read as `0`). -/
def cmpTailL : List Nat → Ordering
  | [] => Ordering.eq
  | a :: as =>
    match compare a 0 with
    | Ordering.eq => cmpTailL as
    | o => o

/-- Compare an exhausted left-hand side against the components `bs`. -/
def cmpTailR : List Nat → Ordering
  | [] => Ordering.eq
  | b :: bs =>
    match compare 0 b with
    | Ordering.eq => cmpTailR bs
    | o => o

/-- Component-wise comparison of two dotted-numeric versions, left to right
as integers, a missing trailing component read as `0`.  This is at once the
comparator of the `V3` revision of the script (its loop runs to the longer
length with `aParts[i] || 0`) and the specification's standard dotted-numeric
version ordering, against which the primary comparator is checked. -/
def lexCompare : List Nat → List Nat → Ordering
  | [], bs => cmpTailR bs
  | a :: as, [] => cmpTailL (a :: as)
  | a :: as, b :: bs =>
    match compare a b with
    | Ordering.eq => lexCompare as bs
    | o => o

/-- Modelled from the spec: `a` is no greater than `b` under standard
dotted-numeric version ordering (components compared left to right as
integers, missing trailing components read as `0`). -/
def specVersionLe (a b : String) : Prop :=
  lexCompare (versionParts a) (versionParts b) ≠ Ordering.gt

instance (a b : String) : Decidable (specVersionLe a b) := by
  unfold specVersionLe; infer_instance

/-- `a` sorts no later than `b` under the `V3` revision's comparator. -/
def jsGEV3 (a b : String) : Bool :=
  match lexCompare (versionParts a) (versionParts b) with
  | Ordering.lt => false
  | _ => true

/-- Insertion step for the `V3` comparator. -/
def insertDescV3 (x : String) : List String → List String
  | [] => [x]
  | y :: ys => if jsGEV3 x y then x :: y :: ys else y :: insertDescV3 x ys

/-- Descending sort under the `V3` comparator. -/
def sortDescV3 : List String → List String
  | [] => []
  | x :: xs => insertDescV3 x (sortDescV3 xs)

/-! ## Deduplication (`[...new Set(versions)]`, keeps first occurrences) -/

/-- Deduplicate keeping the first occurrence of each string; `seen` collects
the strings already emitted. -/
def dedupSeen : List String → List String → List String
  | _, [] => []
  | seen, x :: xs =>
    if x ∈ seen then dedupSeen seen xs else x :: dedupSeen (x :: seen) xs

/-- `[...new Set(l)]`. -/
def dedupFirst (l : List String) : List String := dedupSeen [] l

/-! ## Network fetch outcomes -/

/-- Outcome of one `fetch`: the promise rejected (`threw`), the response was
not `ok`, or an `ok` response with the given body text. -/
inductive FetchOutcome where
  | threw
  | notOk
  | ok (body : String)
deriving DecidableEq

/-- `update.ts` lines 41-62: GitHub fallback.  `tagName?` is `some t` when
the API fetch succeeded with a JSON body whose `tag_name` is the string `t`;
any failure (fetch error, non-ok response, JSON parse error, missing
`tag_name`, in which case `tagName.startsWith` throws) is `none`.  A leading
lowercase `'v'` is stripped (`tagName.startsWith('v') ? tagName.substring(1)
: tagName`). -/
def fetchLatestVersionFromGitHub (tagName? : Option String) : Option String :=
  match tagName? with
  | none => none
  | some tagName =>
    some (if beginsWith ['v'] tagName.toList
          then String.mk (tagName.toList.drop 1) else tagName)

/-- `update.ts` lines 67-115: primary version source.  On a fetch error or
non-ok response (both raise inside the `try`) the GitHub fallback is used;
on an ok listing with no pattern matches the function returns `null` without
falling back; otherwise the deduplicated matches are sorted descending and
the first element is returned. -/
def fetchLatestTailscaleVersion (stable : FetchOutcome) (tagName? : Option String) :
    Option String :=
  match stable with
  | FetchOutcome.ok html =>
    let versions := extractTgzVersions html
    if versions = [] then none
    else (sortDesc (dedupFirst versions)).head?
  | _ => fetchLatestVersionFromGitHub tagName?

/-- The `V3` revision of the primary version source (same structure, `V3`
comparator). -/
def fetchLatestTailscaleVersionV3 (stable : FetchOutcome) (tagName? : Option String) :
    Option String :=
  match stable with
  | FetchOutcome.ok html =>
    let versions := extractTgzVersions html
    if versions = [] then none
    else (sortDescV3 (dedupFirst versions)).head?
  | _ => fetchLatestVersionFromGitHub tagName?

/-! ## Checksum fetching -/

/-- `text.trim().split(/\s+/)[0]`: the first whitespace-delimited token
(empty when the body is all whitespace, since `"".split(/\s+/)` is `[""]`). -/
def firstToken (s : String) : String :=
  String.mk ((s.toList.dropWhile fun c => isWsChar c).takeWhile fun c => !isWsChar c)

/-- A hexadecimal digit, case-insensitive (`[a-f0-9]` with the `i` flag). -/
def isHexDigitCI (c : Char) : Bool :=
  c.isDigit || ('a' ≤ c && c ≤ 'f') || ('A' ≤ c && c ≤ 'F')

/-- `/^[a-f0-9]\x7b64\x7d$/i.test s`: exactly 64 hex characters. -/
def isSha256Hex (s : String) : Bool :=
  s.toList.length = 64 && s.toList.all isHexDigitCI

/-- Does a run of 64 hex characters start here? -/
def hexRun64 (l : List Char) : Bool :=
  (l.take 64).length = 64 && (l.take 64).all isHexDigitCI

/-- Leftmost 64-hex-character run in a line (`line.match(/([a-f0-9]\x7b64\x7d)/i)`). -/
def find64Hex : List Char → Option (List Char)
  | [] => none
  | c :: cs => if hexRun64 (c :: cs) then some ((c :: cs).take 64) else find64Hex cs

/-- `update.ts` lines 146-155: scan the listing page's lines for the first
line containing the package name that also contains a 64-hex run. -/
def scanLines (pkg : List Char) : List (List Char) → Option (List Char)
  | [] => none
  | line :: rest =>
    if hasSub pkg line then
      match find64Hex line with
      | some h => some h
      | none => scanLines pkg rest
    else scanLines pkg rest

/-- `update.ts` lines 120-163: fetch the digest.  An ok `.sha256` response
yields its first token with no validation; a non-ok response falls back to
scanning the listing page; a rejected fetch is caught and yields `null`. -/
def fetchSHA256 (shaFile : FetchOutcome) (page : FetchOutcome) (pkg : String) :
    Option String :=
  match shaFile with
  | FetchOutcome.ok body => some (firstToken body)
  | FetchOutcome.notOk =>
    match page with
    | FetchOutcome.ok html =>
      match scanLines pkg.toList (splitOnCharList '\n' html.toList) with
      | some h => some (String.mk h)
      | none => none
    | _ => none
  | FetchOutcome.threw => none

/-- The `V3` revision's `fetchSHA256` (part_003 lines 124-151): any fetch
failure or non-ok response yields `null`; the first token of an ok body is
validated against `/^[a-f0-9]\x7b64\x7d$/i` and rejected (an exception,
caught into `null`) when invalid. -/
def fetchSHA256V3 (shaFile : FetchOutcome) (_pkg : String) : Option String :=
  match shaFile with
  | FetchOutcome.ok body =>
    let hash := firstToken body
    if isSha256Hex hash then some hash else none
  | _ => none

/-! ## Current date (`getCurrentDate`, lines 204-210) -/

/-- Decimal digit character. -/
def decDigit (n : Nat) : Char := Char.ofNat (48 + n)

/-- Decimal representation, most significant digit first (JavaScript
`String(n)` for an integer number).  Fuel-driven so that the kernel can
evaluate it; `n + 1` units of fuel always suffice since `n / 10 < n`. -/
def decReprAux : Nat → Nat → List Char
  | 0, _ => []
  | fuel + 1, n =>
    if n < 10 then [decDigit n]
    else decReprAux fuel (n / 10) ++ [decDigit (n % 10)]

/-- JavaScript `String(n)` for a natural number. -/
def natStr (n : Nat) : String := String.mk (decReprAux (n + 1) n)

/-- `String.prototype.padStart(2, '0')`. -/
def padStart2 (s : String) : String :=
  String.mk (List.replicate (2 - s.toList.length) '0' ++ s.toList)

/-- The system date as read by the script: `getFullYear()`, `getMonth() + 1`
and `getDate()`. -/
structure SysDate where
  year : Nat
  month : Nat
  day : Nat
deriving DecidableEq

/-- `update.ts` lines 204-210: `YYYY.MM.DD` with zero-padded month and day
(the year is printed unpadded). -/
def getCurrentDate (d : SysDate) : String :=
  natStr d.year ++ "." ++ padStart2 (natStr d.month) ++ "." ++ padStart2 (natStr d.day)

/-! ## The configuration record (`TailscaleConfig`, lines 19-31) -/

/-- The eleven string fields of `tools/plugin/tailscale.json`. -/
structure TailscaleConfig where
  name : String
  author : String
  githubRepository : String
  version : String
  tailscaleVersion : String
  tailscaleSHA256 : String
  packageVersion : String
  packageSHA256 : String
  pluginDirectory : String
  configDirectory : String
  minver : String
deriving DecidableEq

/-! ## Occurrence predicates (specification side of the pattern claims) -/

/-- A nonempty run of decimal digits. -/
def DigitsNE (d : List Char) : Prop := d ≠ [] ∧ ∀ c ∈ d, c.isDigit = true

/-- `v` has the shape `<digits>.<digits>.<digits>` of a captured version. -/
def VersionShape (v : List Char) : Prop :=
  ∃ d1 d2 d3, DigitsNE d1 ∧ DigitsNE d2 ∧ DigitsNE d3 ∧
    v = d1 ++ '.' :: d2 ++ '.' :: d3

/-- The substring `tailscale_<v>_amd64` (with `v` of version shape) occurs
in `s` starting at index `i`. -/
def OccAt (s : List Char) (i : Nat) (v : List Char) : Prop :=
  VersionShape v ∧ ∃ pre post, pre.length = i ∧
    s = pre ++ (tsLead ++ v ++ amdTail) ++ post

/-! ## ConfigStore: `JSON.stringify(config, null, 4)` and `JSON.parse`

`writeConfig` (lines 181-191) serialises the record with 4-space pretty
printing and appends a newline; `readConfig` (lines 168-176) parses the file
text.  The serialiser below mirrors ECMA-404/ECMA-262 `QuoteJSONString` for
the string values (the record's fields are all strings); the parser models
`JSON.parse` restricted to the fragment the record lives in: an object whose
member values are strings, with arbitrary member order, duplicate keys
resolved last-wins, and the four JSON whitespace characters allowed between
tokens.  Unicode escapes denoting lone UTF-16 surrogates (impossible for
`Char`) decode to the replacement behaviour of `Char.ofNat`. -/

/-- Lowercase hexadecimal digit character (as produced by
`Number::toString(16)` inside `UnicodeEscape`). -/
def hexDigChar (n : Nat) : Char :=
  if n < 10 then Char.ofNat (48 + n) else Char.ofNat (87 + n)

/-- `QuoteJSONString` escaping of one character. -/
def escChar (c : Char) : List Char :=
  if c = quoteC then [bslC, quoteC]
  else if c = bslC then [bslC, bslC]
  else if c = Char.ofNat 8 then [bslC, 'b']
  else if c = Char.ofNat 9 then [bslC, 't']
  else if c = Char.ofNat 10 then [bslC, 'n']
  else if c = Char.ofNat 12 then [bslC, 'f']
  else if c = Char.ofNat 13 then [bslC, 'r']
  else if c.toNat < 32 then
    [bslC, 'u', '0', '0', hexDigChar (c.toNat / 16), hexDigChar (c.toNat % 16)]
  else [c]

/-- `QuoteJSONString` escaping of a whole string body. -/
def escapeList (l : List Char) : List Char :=
  l.foldr (fun c acc => escChar c ++ acc) []

/-- Four spaces: the `4` indent argument of `JSON.stringify`. -/
def sp4 : List Char := [' ', ' ', ' ', ' ']

/-- One serialised member: `"key": "value"` with both strings quoted and
escaped. -/
def fieldChunk (k v : String) : List Char :=
  quoteC :: escapeList k.toList ++ quoteC :: ':' :: ' ' ::
    quoteC :: escapeList v.toList ++ [quoteC]

/-- The separator `,\n    ` between members at indent level 1. -/
def fieldSep : List Char := [',', '\n', ' ', ' ', ' ', ' ']

/-- The record's members in declaration order (the order `JSON.stringify`
emits for an object built in that order). -/
def configPairs (c : TailscaleConfig) : List (String × String) :=
  [("name", c.name), ("author", c.author),
   ("githubRepository", c.githubRepository), ("version", c.version),
   ("tailscaleVersion", c.tailscaleVersion),
   ("tailscaleSHA256", c.tailscaleSHA256),
   ("packageVersion", c.packageVersion), ("packageSHA256", c.packageSHA256),
   ("pluginDirectory", c.pluginDirectory),
   ("configDirectory", c.configDirectory), ("minver", c.minver)]

/-- Join serialised members with the separator. -/
def joinFields : List (String × String) → List Char
  | [] => []
  | [(k, v)] => fieldChunk k v
  | (k, v) :: rest => fieldChunk k v ++ fieldSep ++ joinFields rest

/-- `JSON.stringify(config, null, 4)` as a character list. -/
def serializeConfigChars (c : TailscaleConfig) : List Char :=
  lbraceC :: '\n' :: sp4 ++ joinFields (configPairs c) ++ '\n' :: [rbraceC]

/-- `writeConfig`'s file contents: the pretty JSON plus the trailing
newline (line 184). -/
def writeConfigContent (c : TailscaleConfig) : String :=
  String.mk (serializeConfigChars c ++ ['\n'])

/-- Value of a hexadecimal digit character, if any. -/
def hexVal (c : Char) : Option Nat :=
  if '0' ≤ c ∧ c ≤ '9' then some (c.toNat - 48)
  else if 'a' ≤ c ∧ c ≤ 'f' then some (c.toNat - 87)
  else if 'A' ≤ c ∧ c ≤ 'F' then some (c.toNat - 55)
  else none

/-- Decode a single-character JSON escape (after the backslash). -/
def escDecode (c : Char) : Option Char :=
  if c = quoteC then some quoteC
  else if c = bslC then some bslC
  else if c = '/' then some '/'
  else if c = 'b' then some (Char.ofNat 8)
  else if c = 'f' then some (Char.ofNat 12)
  else if c = 'n' then some (Char.ofNat 10)
  else if c = 'r' then some (Char.ofNat 13)
  else if c = 't' then some (Char.ofNat 9)
  else none

/-- Parse a JSON string body after the opening quote: decoded characters up
to the closing quote, plus the remainder.  Raw control characters are a
syntax error, as in `JSON.parse`. -/
def parseStrBody : List Char → Option (List Char × List Char)
  | [] => none
  | c :: rest =>
    if c = quoteC then some ([], rest)
    else if c = bslC then
      match rest with
      | [] => none
      | e :: rest2 =>
        if e = 'u' then
          match rest2 with
          | h1 :: h2 :: h3 :: h4 :: rest3 =>
            match hexVal h1, hexVal h2, hexVal h3, hexVal h4 with
            | some v1, some v2, some v3, some v4 =>
              match parseStrBody rest3 with
              | some (s, r) =>
                some (Char.ofNat (((v1 * 16 + v2) * 16 + v3) * 16 + v4) :: s, r)
              | none => none
            | _, _, _, _ => none
          | _ => none
        else
          match escDecode e with
          | some d =>
            match parseStrBody rest2 with
            | some (s, r) => some (d :: s, r)
            | none => none
          | none => none
    else if c.toNat < 32 then none
    else
      match parseStrBody rest with
      | some (s, r) => some (c :: s, r)
      | none => none

/-- Parse a quoted JSON string. -/
def parseStringLit (l : List Char) : Option (List Char × List Char) :=
  match l with
  | c :: rest => if c = quoteC then parseStrBody rest else none
  | [] => none

/-- Skip JSON whitespace. -/
def skipWs : List Char → List Char
  | [] => []
  | c :: cs => if isWsChar c then skipWs cs else c :: cs

/-- Parse the members of an object (after the opening brace, known to be
nonempty): repeatedly a string key, a colon, a string value, then a comma
(continue) or the closing brace (stop).  Every member consumes at least one
character, so `l.length + 1` fuel always suffices for an input `l`. -/
def parseMembersAux : Nat → List Char → Option (List (String × String) × List Char)
  | 0, _ => none
  | fuel + 1, l =>
    match parseStringLit (skipWs l) with
    | none => none
    | some (k, r1) =>
      match skipWs r1 with
      | [] => none
      | c :: r2 =>
        if c = ':' then
          match parseStringLit (skipWs r2) with
          | none => none
          | some (v, r3) =>
            match skipWs r3 with
            | [] => none
            | d :: r4 =>
              if d = ',' then
                match parseMembersAux fuel r4 with
                | some (ms, r) => some ((String.mk k, String.mk v) :: ms, r)
                | none => none
              else if d = rbraceC then some ([(String.mk k, String.mk v)], r4)
              else none
        else none

/-- Parse a JSON object of string members. -/
def parseObj (l : List Char) : Option (List (String × String) × List Char) :=
  match skipWs l with
  | c :: r =>
    if c = lbraceC then
      match skipWs r with
      | d :: r2 =>
        if d = rbraceC then some ([], r2) else parseMembersAux (r.length + 1) r
      | [] => none
    else none
  | [] => none

/-- Last-wins member lookup (duplicate keys in `JSON.parse` resolve to the
last occurrence). -/
def getF : List (String × String) → String → Option String
  | [], _ => none
  | (k', v) :: rest, k =>
    match getF rest k with
    | some r => some r
    | none => if k' = k then some v else none

/-- Assemble the record from parsed members; all eleven fields must be
present (`JSON.parse` itself would yield `undefined` fields, which every
later use of the record dereferences). -/
def buildRecord (ps : List (String × String)) : Option TailscaleConfig :=
  match getF ps "name", getF ps "author", getF ps "githubRepository",
      getF ps "version", getF ps "tailscaleVersion", getF ps "tailscaleSHA256",
      getF ps "packageVersion", getF ps "packageSHA256",
      getF ps "pluginDirectory", getF ps "configDirectory", getF ps "minver" with
  | some a1, some a2, some a3, some a4, some a5, some a6, some a7, some a8,
      some a9, some a10, some a11 =>
    some ⟨a1, a2, a3, a4, a5, a6, a7, a8, a9, a10, a11⟩
  | _, _, _, _, _, _, _, _, _, _, _ => none

/-- `readConfig`'s parse of the file text: a single JSON object followed
only by whitespace. -/
def readConfig (content : String) : Option TailscaleConfig :=
  match parseObj content.toList with
  | some (ps, rest) => if skipWs rest = [] then buildRecord ps else none
  | none => none

/-! ## The workflow (`main`, lines 252-308) -/

/-- One run's environment: the outcome of reading and parsing the config
file, of each network request the run may issue, of the config write, of the
build subprocess (`none` models `Deno.Command` throwing, `some c` exit code
`c`), and the system date. -/
structure Env where
  readResult : Option TailscaleConfig
  stableListing : FetchOutcome
  githubTag : Option String
  shaFile : FetchOutcome
  stablePage : FetchOutcome
  writeOk : Bool
  buildResult : Option Nat

/-- Observable side effects of a run, in order. -/
inductive Event where
  | shaRequested (pkg : String)
  | configWritten (cfg : TailscaleConfig)
  | buildInvoked
deriving DecidableEq

/-- Exit code and ordered event trace of a run. -/
structure RunResult where
  exitCode : Nat
  events : List Event
deriving DecidableEq

/-- The configuration records written during a run, in order. -/
def writeEvents (r : RunResult) : List TailscaleConfig :=
  r.events.filterMap fun e =>
    match e with
    | Event.configWritten c => some c
    | _ => none

/-- `update.ts` `main` (lines 252-308) as a function of the environment and
system date.  `if (!x)` on a string is falsy for both `null` and `""`, hence
the explicit empty-string branches. -/
def main (env : Env) (today : SysDate) : RunResult :=
  match env.readResult with
  | none => ⟨1, []⟩
  | some config =>
    let currentVersion := extractVersion config.tailscaleVersion
    match fetchLatestTailscaleVersion env.stableListing env.githubTag with
    | none => ⟨1, []⟩
    | some latestVersion =>
      if latestVersion = "" then ⟨1, []⟩
      else if currentVersion = latestVersion then ⟨0, []⟩
      else
        let amd64Package := "tailscale_" ++ latestVersion ++ "_amd64.tgz"
        match fetchSHA256 env.shaFile env.stablePage amd64Package with
        | none => ⟨1, [Event.shaRequested amd64Package]⟩
        | some sha256 =>
          if sha256 = "" then ⟨1, [Event.shaRequested amd64Package]⟩
          else
            let newConfig : TailscaleConfig :=
              { config with
                version := getCurrentDate today
                tailscaleVersion := "tailscale_" ++ latestVersion ++ "_amd64"
                tailscaleSHA256 := sha256 }
            if env.writeOk then
              if env.buildResult = some 0 then
                ⟨0, [Event.shaRequested amd64Package,
                     Event.configWritten newConfig, Event.buildInvoked]⟩
              else
                ⟨1, [Event.shaRequested amd64Package,
                     Event.configWritten newConfig, Event.buildInvoked]⟩
            else ⟨1, [Event.shaRequested amd64Package]⟩

/-- The `V3` revision's `main` (part_003 lines 240-296): structurally
identical, using the `V3` version source and validated checksum fetch. -/
def mainV3 (env : Env) (today : SysDate) : RunResult :=
  match env.readResult with
  | none => ⟨1, []⟩
  | some config =>
    let currentVersion := extractVersion config.tailscaleVersion
    match fetchLatestTailscaleVersionV3 env.stableListing env.githubTag with
    | none => ⟨1, []⟩
    | some latestVersion =>
      if latestVersion = "" then ⟨1, []⟩
      else if currentVersion = latestVersion then ⟨0, []⟩
      else
        let amd64Package := "tailscale_" ++ latestVersion ++ "_amd64.tgz"
        match fetchSHA256V3 env.shaFile amd64Package with
        | none => ⟨1, [Event.shaRequested amd64Package]⟩
        | some sha256 =>
          if sha256 = "" then ⟨1, [Event.shaRequested amd64Package]⟩
          else
            let newConfig : TailscaleConfig :=
              { config with
                version := getCurrentDate today
                tailscaleVersion := "tailscale_" ++ latestVersion ++ "_amd64"
                tailscaleSHA256 := sha256 }
            if env.writeOk then
              if env.buildResult = some 0 then
                ⟨0, [Event.shaRequested amd64Package,
                     Event.configWritten newConfig, Event.buildInvoked]⟩
              else
                ⟨1, [Event.shaRequested amd64Package,
                     Event.configWritten newConfig, Event.buildInvoked]⟩
            else ⟨1, [Event.shaRequested amd64Package]⟩

/-! ## Concrete inputs used by the witness theorems -/

/-- A stored configuration record with realistic field values. -/
def cfgW : TailscaleConfig :=
  ⟨"tailscale", "louislam", "unraid-6.12-tailscale", "2024.01.01",
   "tailscale_1.90.6_amd64", "oldsha", "1", "pkgsha", "plugdir", "confdir",
   "6.12"⟩

/-- A checksum response body whose first token is a valid 64-hex digest. -/
def shaBodyW : String :=
  "0123456789abcdef0123456789abcdef0123456789abcdef0123456789abcdef  tailscale_1.92.0_amd64.tgz"

/-- An environment that drives the workflow down the successful update path. -/
def envW : Env :=
  ⟨some cfgW,
   FetchOutcome.ok "tailscale_1.90.6_amd64.tgz tailscale_1.92.0_amd64.tgz",
   none, FetchOutcome.ok shaBodyW, FetchOutcome.threw, true, some 0⟩

/-- An environment in which the stored record is already up to date. -/
def envUpToDateW : Env :=
  ⟨some cfgW, FetchOutcome.ok "tailscale_1.90.6_amd64.tgz",
   none, FetchOutcome.threw, FetchOutcome.threw, true, some 0⟩

/-- `envW` with a failing build step. -/
def envBuildFailW : Env := { envW with buildResult := some 2 }

/-- `envW` with a checksum response whose first token is not 64 hex chars. -/
def envBadShaW : Env :=
  { envW with shaFile := FetchOutcome.ok "deadbeef  tailscale_1.92.0_amd64.tgz" }

/-- A malformed stored identifier, a failing primary fetch, and a GitHub tag
of just `"v"`, making the fetched latest version the empty string. -/
def envEmptyLatestW : Env :=
  ⟨some { cfgW with tailscaleVersion := "bogus" }, FetchOutcome.threw,
   some "v", FetchOutcome.threw, FetchOutcome.threw, true, some 0⟩

/-- The system date used by the witnesses. -/
def dateW : SysDate := ⟨2026, 10, 12⟩

/-- The record the successful update path of `envW` writes. -/
def cfgNewW : TailscaleConfig :=
  ⟨"tailscale", "louislam", "unraid-6.12-tailscale", "2026.10.12",
   "tailscale_1.92.0_amd64",
   "0123456789abcdef0123456789abcdef0123456789abcdef0123456789abcdef",
   "1", "pkgsha", "plugdir", "confdir", "6.12"⟩

/-! ## Lemmas: literal matching -/

theorem beginsWith_eq_true_iff (p : List Char) :
    ∀ l, beginsWith p l = true ↔ ∃ t, l = p ++ t := by
  induction p with
  | nil => intro l; simp [beginsWith]
  | cons a p ih =>
    intro l
    cases l with
    | nil =>
      simp only [beginsWith]
      constructor
      · intro h; cases h
      · rintro ⟨t, ht⟩; cases ht
    | cons c cs =>
      simp only [beginsWith, Bool.and_eq_true, decide_eq_true_eq, ih]
      constructor
      · rintro ⟨rfl, t, rfl⟩; exact ⟨t, rfl⟩
      · rintro ⟨t, ht⟩
        injection ht with h1 h2
        exact ⟨h1.symm, t, h2⟩

theorem beginsWith_append (p t : List Char) : beginsWith p (p ++ t) = true :=
  (beginsWith_eq_true_iff p (p ++ t)).2 ⟨t, rfl⟩

/-! ## Lemmas: maximal digit runs -/

theorem takeDigits_spec : ∀ l : List Char,
    l = (takeDigits l).1 ++ (takeDigits l).2 ∧
      ∀ c ∈ (takeDigits l).1, c.isDigit = true := by
  intro l
  induction l with
  | nil => simp [takeDigits]
  | cons c cs ih =>
    by_cases hc : c.isDigit
    · simpa [takeDigits, hc] using ⟨by rw [← ih.1], ih.2⟩
    · simp [takeDigits, hc]

theorem takeDigits_complete : ∀ (d : List Char) (c : Char) (rest : List Char),
    (∀ x ∈ d, x.isDigit = true) → c.isDigit = false →
    takeDigits (d ++ c :: rest) = (d, c :: rest) := by
  intro d
  induction d with
  | nil => intro c rest _ hc; simp [takeDigits, hc]
  | cons a d ih =>
    intro c rest hd hc
    have ha : a.isDigit = true := hd a (by simp)
    simp [takeDigits, ha, ih c rest (fun x hx => hd x (by simp [hx])) hc]

/-! ## Lemmas: the version core pattern -/

theorem matchVersionAt_sound {l v r : List Char}
    (h : matchVersionAt l = some (v, r)) : VersionShape v ∧ l = v ++ r := by
  unfold matchVersionAt at h
  obtain ⟨hs1, hd1⟩ := takeDigits_spec l
  rcases htd1 : takeDigits l with ⟨d1, r1⟩
  rw [htd1] at h hs1 hd1
  dsimp only at h hs1 hd1
  by_cases h1 : d1 = []
  · simp [h1] at h
  rw [if_neg h1] at h
  rcases r1 with _ | ⟨c1, r2⟩
  · simp at h
  dsimp only at h
  by_cases hc1 : c1 = '.'
  case neg => rw [if_neg hc1] at h; simp at h
  rw [if_pos hc1] at h
  subst hc1
  obtain ⟨hs2, hd2⟩ := takeDigits_spec r2
  rcases htd2 : takeDigits r2 with ⟨d2, r3⟩
  rw [htd2] at h hs2 hd2
  dsimp only at h hs2 hd2
  by_cases h2 : d2 = []
  · simp [h2] at h
  rw [if_neg h2] at h
  rcases r3 with _ | ⟨c2, r4⟩
  · simp at h
  dsimp only at h
  by_cases hc2 : c2 = '.'
  case neg => rw [if_neg hc2] at h; simp at h
  rw [if_pos hc2] at h
  subst hc2
  obtain ⟨hs3, hd3⟩ := takeDigits_spec r4
  rcases htd3 : takeDigits r4 with ⟨d3, r5⟩
  rw [htd3] at h hs3 hd3
  dsimp only at h hs3 hd3
  by_cases h3 : d3 = []
  · simp [h3] at h
  rw [if_neg h3] at h
  injection h with h'
  injection h' with hv hr
  subst hv
  subst hr
  refine ⟨⟨d1, d2, d3, ⟨h1, hd1⟩, ⟨h2, hd2⟩, ⟨h3, hd3⟩, rfl⟩, ?_⟩
  rw [hs1, hs2, hs3]
  simp

theorem matchVersionAt_complete (d1 d2 d3 : List Char) (c : Char) (rest : List Char)
    (h1 : DigitsNE d1) (h2 : DigitsNE d2) (h3 : DigitsNE d3)
    (hc : c.isDigit = false) :
    matchVersionAt (d1 ++ '.' :: d2 ++ '.' :: d3 ++ c :: rest) =
      some (d1 ++ '.' :: d2 ++ '.' :: d3, c :: rest) := by
  have hdot : ('.' : Char).isDigit = false := by decide
  have t1 := takeDigits_complete d1 '.' (d2 ++ '.' :: d3 ++ c :: rest) h1.2 hdot
  have t2 := takeDigits_complete d2 '.' (d3 ++ c :: rest) h2.2 hdot
  have t3 := takeDigits_complete d3 c rest h3.2 hc
  unfold matchVersionAt
  simp only [List.cons_append, List.append_assoc] at t1 t2 t3 ⊢
  rw [t1]
  dsimp only
  rw [if_neg h1.1, if_pos rfl, t2]
  dsimp only
  rw [if_neg h2.1, if_pos rfl, t3]
  dsimp only
  rw [if_neg h3.1]

/-! ## Lemmas: the full pattern at one position -/

theorem matchAt_sound {suffix l v r : List Char}
    (h : matchAt suffix l = some (v, r)) :
    VersionShape v ∧ l = tsLead ++ v ++ suffix ++ r := by
  unfold matchAt at h
  split at h
  · rename_i hbw
    obtain ⟨t, rfl⟩ := (beginsWith_eq_true_iff tsLead _).1 hbw
    have hdrop : (tsLead ++ t).drop 10 = t := by
      have h10 : tsLead.length = 10 := by decide
      rw [← h10, List.drop_left]
    rw [hdrop] at h
    split at h
    · rename_i v' r' hmv
      obtain ⟨hshape, hsplit⟩ := matchVersionAt_sound hmv
      split at h
      · rename_i hbs
        obtain ⟨t2, ht2⟩ := (beginsWith_eq_true_iff suffix _).1 hbs
        injection h with h'
        injection h' with hv hr
        subst hv
        have hdrop2 : r'.drop suffix.length = t2 := by
          rw [ht2, List.drop_left]
        rw [hdrop2] at hr
        subst hr
        refine ⟨hshape, ?_⟩
        rw [hsplit, ht2]
        simp
      · exact absurd h (by simp)
    · exact absurd h (by simp)
  · exact absurd h (by simp)

theorem matchAt_complete (c : Char) (s' v post : List Char)
    (hc : c.isDigit = false) (hv : VersionShape v) :
    matchAt (c :: s') (tsLead ++ v ++ (c :: s') ++ post) = some (v, post) := by
  obtain ⟨d1, d2, d3, h1, h2, h3, rfl⟩ := hv
  unfold matchAt
  rw [show tsLead ++ (d1 ++ '.' :: d2 ++ '.' :: d3) ++ (c :: s') ++ post =
      tsLead ++ ((d1 ++ '.' :: d2 ++ '.' :: d3) ++ ((c :: s') ++ post)) by simp]
  rw [if_pos (beginsWith_append tsLead _)]
  have hdrop : (tsLead ++ ((d1 ++ '.' :: d2 ++ '.' :: d3) ++ ((c :: s') ++ post))).drop 10 =
      (d1 ++ '.' :: d2 ++ '.' :: d3) ++ ((c :: s') ++ post) := by
    have h10 : tsLead.length = 10 := by decide
    rw [← h10, List.drop_left]
  rw [hdrop]
  have hassoc : (d1 ++ '.' :: d2 ++ '.' :: d3) ++ ((c :: s') ++ post) =
      d1 ++ '.' :: d2 ++ '.' :: d3 ++ c :: (s' ++ post) := by simp
  rw [hassoc, matchVersionAt_complete d1 d2 d3 c (s' ++ post) h1 h2 h3 hc]
  dsimp only
  rw [show (c :: (s' ++ post)) = (c :: s') ++ post from rfl,
    if_pos (beginsWith_append (c :: s') post), List.drop_left]

/-! ## Lemmas: occurrences and the leftmost-match scan -/

theorem versionShape_ne_nil {v : List Char} (h : VersionShape v) : v ≠ [] := by
  obtain ⟨d1, d2, d3, h1, _, _, rfl⟩ := h
  rcases d1 with _ | ⟨a, d1⟩
  · exact absurd rfl h1.1
  · simp

theorem occ_nil (i : Nat) (v : List Char) : ¬ OccAt [] i v := by
  rintro ⟨_, pre, post, _, hs⟩
  have := congrArg List.length hs
  simp [tsLead] at this
  omega

theorem occ_cons_iff (c : Char) (s : List Char) (i : Nat) (v : List Char) :
    OccAt (c :: s) (i + 1) v ↔ OccAt s i v := by
  constructor
  · rintro ⟨hshape, pre, post, hlen, hs⟩
    rcases pre with _ | ⟨p, pre⟩
    · simp at hlen
    · injection hs with _ hs'
      exact ⟨hshape, pre, post, by simpa using hlen, hs'⟩
  · rintro ⟨hshape, pre, post, hlen, hs⟩
    exact ⟨hshape, c :: pre, post, by simpa using hlen, by simp [hs]⟩

theorem amdTail_eq : amdTail = '_' :: "amd64".toList := by decide

theorem occ_zero_matchAt {s v : List Char} (h : OccAt s 0 v) :
    ∃ post, matchAt amdTail s = some (v, post) := by
  obtain ⟨hshape, pre, post, hlen, hs⟩ := h
  rcases pre with _ | ⟨p, pre⟩
  · refine ⟨post, ?_⟩
    rw [hs]
    simp only [List.nil_append, List.append_assoc]
    rw [amdTail_eq]
    have hm := matchAt_complete '_' "amd64".toList v post (by decide) hshape
    simpa using hm
  · simp at hlen

theorem matchAt_some_occ {s v r : List Char}
    (h : matchAt amdTail s = some (v, r)) : OccAt s 0 v := by
  obtain ⟨hshape, hs⟩ := matchAt_sound h
  exact ⟨hshape, [], r, rfl, by simp [hs]⟩

theorem ffm_none_iff {s : List Char} :
    findFirstMatch s = none ↔ ∀ i v, ¬ OccAt s i v := by
  induction s with
  | nil => simp [findFirstMatch, occ_nil]
  | cons c cs ih =>
    unfold findFirstMatch
    rcases hma : matchAt amdTail (c :: cs) with _ | ⟨v, r⟩
    · simp only []
      rw [ih]
      constructor
      · intro h i v hocc
        rcases i with _ | i
        · obtain ⟨post, hmm⟩ := occ_zero_matchAt hocc
          rw [hma] at hmm
          cases hmm
        · exact h i v ((occ_cons_iff c cs i v).1 hocc)
      · intro h i v hocc
        exact h (i + 1) v ((occ_cons_iff c cs i v).2 hocc)
    · simp only []
      constructor
      · intro h; cases h
      · intro h
        exact absurd (matchAt_some_occ hma) (h 0 v)

theorem ffm_some_occ {s : List Char} {v : List Char}
    (h : findFirstMatch s = some v) : ∃ i, OccAt s i v := by
  induction s with
  | nil => cases h
  | cons c cs ih =>
    unfold findFirstMatch at h
    rcases hma : matchAt amdTail (c :: cs) with _ | ⟨w, r⟩
    · rw [hma] at h
      obtain ⟨i, hi⟩ := ih h
      exact ⟨i + 1, (occ_cons_iff c cs i v).2 hi⟩
    · rw [hma] at h
      injection h with h'
      subst h'
      exact ⟨0, matchAt_some_occ hma⟩

theorem ffm_first {s : List Char} : ∀ {i : Nat} {v : List Char},
    OccAt s i v → (∀ j w, OccAt s j w → i ≤ j) → findFirstMatch s = some v := by
  induction s with
  | nil => intro i v hocc _; exact absurd hocc (occ_nil i v)
  | cons c cs ih =>
    intro i v hocc hmin
    rcases i with _ | i
    · obtain ⟨post, hmm⟩ := occ_zero_matchAt hocc
      unfold findFirstMatch
      rw [hmm]
    · have hnone : matchAt amdTail (c :: cs) = none := by
        rcases hma : matchAt amdTail (c :: cs) with _ | ⟨w, r⟩
        · rfl
        · exact absurd (hmin 0 w (matchAt_some_occ hma)) (by omega)
      unfold findFirstMatch
      rw [hnone]
      exact ih ((occ_cons_iff c cs i v).1 hocc)
        (fun j w hj => by
          have := hmin (j + 1) w ((occ_cons_iff c cs j w).2 hj)
          omega)

/-- C10: `extractVersion` matches its pattern anywhere in the input, not
anchored to the whole string: for every string containing a substring of the
form `tailscale_<digits>.<digits>.<digits>_amd64` (with arbitrary text
before or after), it returns the version digits of the first (leftmost) such
occurrence, and it returns the empty string exactly when no such substring
exists. -/
theorem claim_C10 (s : String) :
    (extractVersion s = "" ↔ ∀ i v, ¬ OccAt s.toList i v) ∧
    (∀ i v, OccAt s.toList i v → (∀ j w, OccAt s.toList j w → i ≤ j) →
      extractVersion s = String.mk v) := by
  constructor
  · unfold extractVersion
    rcases hf : findFirstMatch s.toList with _ | v
    · have h := ffm_none_iff.1 hf
      exact ⟨fun _ => h, fun _ => rfl⟩
    · obtain ⟨i, hi⟩ := ffm_some_occ hf
      constructor
      · intro hmk
        exfalso
        have hv : v = [] := by
          have := congrArg String.data hmk
          simpa using this
        exact versionShape_ne_nil hi.1 hv
      · intro h
        exact absurd hi (h i v)
  · intro i v hocc hmin
    unfold extractVersion
    rw [ffm_first hocc hmin]

/-- Witness for C10: the spec's own example, with trailing text after the
`_amd64` marker. -/
theorem claim_C10_witness :
    extractVersion "tailscale_1.2.3_amd64.tgz" = "1.2.3" := by
  have h := (claim_C10 "tailscale_1.2.3_amd64.tgz").2 0 "1.2.3".toList
    ⟨⟨"1".toList, "2".toList, "3".toList, ⟨by decide, by decide⟩,
      ⟨by decide, by decide⟩, ⟨by decide, by decide⟩, by decide⟩,
     [], ".tgz".toList, rfl, by decide⟩
    (fun j w _ => Nat.zero_le j)
  rw [h]
  decide

/-! ## Lemmas: shapes of scraped versions -/

theorem scanAllAux_shape : ∀ (fuel : Nat) (l v : List Char),
    v ∈ scanAllAux fuel l → VersionShape v := by
  intro fuel
  induction fuel with
  | zero => intro l v h; simp [scanAllAux] at h
  | succ fuel ih =>
    intro l v h
    rcases l with _ | ⟨c, cs⟩
    · simp [scanAllAux] at h
    · unfold scanAllAux at h
      rcases hma : matchAt tgzTail (c :: cs) with _ | ⟨w, rest⟩
      · rw [hma] at h
        exact ih cs v h
      · rw [hma] at h
        rcases List.mem_cons.1 h with rfl | h'
        · exact (matchAt_sound hma).1
        · exact ih rest v h'

theorem mem_extractTgzVersions {html v : String}
    (h : v ∈ extractTgzVersions html) :
    ∃ vc, VersionShape vc ∧ v = String.mk vc := by
  obtain ⟨vc, hvc, rfl⟩ := List.mem_map.1 h
  exact ⟨vc, scanAllAux_shape _ _ _ hvc, rfl⟩

theorem digit_ne_dot {c : Char} (h : c.isDigit = true) : c ≠ '.' := by
  intro hc
  subst hc
  simp at h

theorem split_no_sep (sep : Char) : ∀ d : List Char,
    (∀ c ∈ d, c ≠ sep) → splitOnCharList sep d = [d] := by
  intro d
  induction d with
  | nil => intro _; rfl
  | cons a d ih =>
    intro h
    have ha : a ≠ sep := h a (by simp)
    simp only [splitOnCharList, if_neg ha, ih (fun c hc => h c (by simp [hc]))]

theorem split_sep_append (sep : Char) : ∀ (d rest : List Char),
    (∀ c ∈ d, c ≠ sep) →
    splitOnCharList sep (d ++ sep :: rest) = d :: splitOnCharList sep rest := by
  intro d
  induction d with
  | nil =>
    intro rest _
    simp [splitOnCharList]
  | cons a d ih =>
    intro rest h
    have ha : a ≠ sep := h a (by simp)
    have hrec := ih rest (fun c hc => h c (by simp [hc]))
    simp [splitOnCharList, ha, hrec]

theorem versionParts_shape {v : List Char} (h : VersionShape v) :
    ∃ n1 n2 n3, versionParts (String.mk v) = [n1, n2, n3] := by
  obtain ⟨d1, d2, d3, h1, h2, h3, rfl⟩ := h
  refine ⟨digitsToNat d1, digitsToNat d2, digitsToNat d3, ?_⟩
  unfold versionParts
  have htl : (String.mk (d1 ++ '.' :: d2 ++ '.' :: d3)).toList =
      d1 ++ '.' :: (d2 ++ '.' :: d3) := by simp
  rw [htl, split_sep_append '.' d1 (d2 ++ '.' :: d3)
    (fun c hc => digit_ne_dot (h1.2 c hc))]
  rw [split_sep_append '.' d2 d3 (fun c hc => digit_ne_dot (h2.2 c hc))]
  rw [split_no_sep '.' d3 (fun c hc => digit_ne_dot (h3.2 c hc))]
  rfl

/-! ## Lemmas: the comparator is a total preorder -/

theorem compareParts_swap : ∀ (k : Nat) (as bs : List Nat),
    compareParts k as bs = (compareParts k bs as).swap := by
  intro k
  induction k with
  | zero => intro as bs; rfl
  | succ k ih =>
    intro as bs
    unfold compareParts
    rcases h : compare (as.headD 0) (bs.headD 0) with _ | _ | _
    · have : compare (bs.headD 0) (as.headD 0) = Ordering.gt :=
        Nat.compare_eq_gt.2 (Nat.compare_eq_lt.1 h)
      rw [this]; rfl
    · have heq : as.headD 0 = bs.headD 0 := Nat.compare_eq_eq.1 h
      have : compare (bs.headD 0) (as.headD 0) = Ordering.eq :=
        Nat.compare_eq_eq.2 heq.symm
      rw [this]
      exact ih as.tail bs.tail
    · have : compare (bs.headD 0) (as.headD 0) = Ordering.lt :=
        Nat.compare_eq_lt.2 (Nat.compare_eq_gt.1 h)
      rw [this]; rfl

theorem compareParts_ge_trans : ∀ (k : Nat) (as bs cs : List Nat),
    compareParts k as bs ≠ Ordering.lt → compareParts k bs cs ≠ Ordering.lt →
    compareParts k as cs ≠ Ordering.lt := by
  intro k
  induction k with
  | zero => intro as bs cs _ _; simp [compareParts]
  | succ k ih =>
    intro as bs cs h1 h2
    unfold compareParts at h1 h2 ⊢
    rcases hxy : compare (as.headD 0) (bs.headD 0) with _ | _ | _ <;>
      rw [hxy] at h1 <;>
      rcases hyz : compare (bs.headD 0) (cs.headD 0) with _ | _ | _ <;>
      rw [hyz] at h2
    · exact absurd rfl h1
    · exact absurd rfl h1
    · exact absurd rfl h1
    · exact absurd rfl h2
    · have hxz : compare (as.headD 0) (cs.headD 0) = Ordering.eq := by
        rw [Nat.compare_eq_eq.1 hxy, Nat.compare_eq_eq.1 hyz]
        exact Nat.compare_eq_eq.2 rfl
      rw [hxz]
      exact ih as.tail bs.tail cs.tail h1 h2
    · have hxz : compare (as.headD 0) (cs.headD 0) = Ordering.gt := by
        have := Nat.compare_eq_eq.1 hxy
        have := Nat.compare_eq_gt.1 hyz
        exact Nat.compare_eq_gt.2 (by omega)
      rw [hxz]; simp
    · exact absurd rfl h2
    · have hxz : compare (as.headD 0) (cs.headD 0) = Ordering.gt := by
        have := Nat.compare_eq_gt.1 hxy
        have := Nat.compare_eq_eq.1 hyz
        exact Nat.compare_eq_gt.2 (by omega)
      rw [hxz]; simp
    · have hxz : compare (as.headD 0) (cs.headD 0) = Ordering.gt := by
        have := Nat.compare_eq_gt.1 hxy
        have := Nat.compare_eq_gt.1 hyz
        exact Nat.compare_eq_gt.2 (by omega)
      rw [hxz]; simp

theorem compareParts3_lexCompare (a1 a2 a3 b1 b2 b3 : Nat) :
    compareParts 3 [a1, a2, a3] [b1, b2, b3] = lexCompare [a1, a2, a3] [b1, b2, b3] := by
  rcases h1 : compare a1 b1 with _ | _ | _ <;>
    rcases h2 : compare a2 b2 with _ | _ | _ <;>
      rcases h3 : compare a3 b3 with _ | _ | _ <;>
        simp [compareParts, lexCompare, cmpTailR, h1, h2, h3]

theorem jsGE_iff {a b : String} :
    jsGE a b = true ↔ compareParts 3 (versionParts a) (versionParts b) ≠ Ordering.lt := by
  unfold jsGE
  generalize compareParts 3 (versionParts a) (versionParts b) = o
  rcases o with _ | _ | _ <;> simp

theorem jsGE_refl (a : String) : jsGE a a = true := by
  rw [jsGE_iff]
  intro h
  have hs := compareParts_swap 3 (versionParts a) (versionParts a)
  rw [h] at hs
  simp [Ordering.swap] at hs

theorem jsGE_total {a b : String} (h : ¬ jsGE a b = true) : jsGE b a = true := by
  rw [jsGE_iff] at h ⊢
  have hab : compareParts 3 (versionParts a) (versionParts b) = Ordering.lt := by
    by_contra hne
    exact h hne
  have hs := compareParts_swap 3 (versionParts b) (versionParts a)
  rw [hab] at hs
  rw [hs]
  decide

theorem jsGE_trans {a b c : String} (h1 : jsGE a b = true) (h2 : jsGE b c = true) :
    jsGE a c = true := by
  rw [jsGE_iff] at h1 h2 ⊢
  exact compareParts_ge_trans 3 _ _ _ h1 h2

/-! ## Lemmas: descending sort, maximal head -/

theorem sortDesc_spec : ∀ l : List String, l ≠ [] →
    ∃ m t, sortDesc l = m :: t ∧ m ∈ l ∧ ∀ x ∈ l, jsGE m x = true := by
  intro l
  induction l with
  | nil => intro h; exact absurd rfl h
  | cons a l ih =>
    intro _
    rcases l with _ | ⟨b, l'⟩
    · exact ⟨a, [], rfl, by simp, by simp [jsGE_refl]⟩
    · obtain ⟨m, t, hsort, hmem, hmax⟩ := ih (by simp)
      unfold sortDesc
      rw [show sortDesc (b :: l') = m :: t from hsort]
      unfold insertDesc
      by_cases hge : jsGE a m = true
      · rw [if_pos hge]
        refine ⟨a, m :: t, rfl, by simp, ?_⟩
        intro x hx
        rcases List.mem_cons.1 hx with rfl | hx'
        · exact jsGE_refl x
        · exact jsGE_trans hge (hmax x hx')
      · rw [if_neg hge]
        refine ⟨m, insertDesc a t, rfl, by simp [hmem], ?_⟩
        intro x hx
        rcases List.mem_cons.1 hx with rfl | hx'
        · exact jsGE_total hge
        · exact hmax x hx'

/-! ## Lemmas: deduplication preserves membership -/

theorem mem_dedupSeen : ∀ (l seen : List String) (x : String),
    x ∈ dedupSeen seen l ↔ x ∈ l ∧ x ∉ seen := by
  intro l
  induction l with
  | nil => intro seen x; simp [dedupSeen]
  | cons a l ih =>
    intro seen x
    unfold dedupSeen
    by_cases ha : a ∈ seen
    · rw [if_pos ha, ih]
      constructor
      · rintro ⟨hx, hns⟩
        exact ⟨by simp [hx], hns⟩
      · rintro ⟨hx, hns⟩
        rcases List.mem_cons.1 hx with rfl | hx'
        · exact absurd ha hns
        · exact ⟨hx', hns⟩
    · rw [if_neg ha]
      simp only [List.mem_cons, ih]
      constructor
      · rintro (rfl | ⟨hx, hns⟩)
        · exact ⟨Or.inl rfl, ha⟩
        · exact ⟨Or.inr hx, fun hs => hns (by simp [hs])⟩
      · rintro ⟨rfl | hx, hns⟩
        · exact Or.inl rfl
        · by_cases hxa : x = a
          · exact Or.inl hxa
          · exact Or.inr ⟨hx, by simp [hns, hxa]⟩

theorem mem_dedupFirst {l : List String} {x : String} :
    x ∈ dedupFirst l ↔ x ∈ l := by
  unfold dedupFirst
  rw [mem_dedupSeen]
  simp

/-! ## C1 -/

/-- C1: for every listing text, the primary version source returns a maximum
of the set of versions extracted by the `tailscale_X.Y.Z_amd64.tgz` pattern,
under standard dotted-numeric version ordering (components compared left to
right as integers, missing trailing components read as 0). -/
theorem claim_C1 (html : String) (tag? : Option String) (m : String)
    (hm : fetchLatestTailscaleVersion (FetchOutcome.ok html) tag? = some m) :
    m ∈ extractTgzVersions html ∧
      ∀ v ∈ extractTgzVersions html, specVersionLe v m := by
  unfold fetchLatestTailscaleVersion at hm
  dsimp only at hm
  by_cases hv : extractTgzVersions html = []
  · rw [if_pos hv] at hm
    cases hm
  · rw [if_neg hv] at hm
    have hne : dedupFirst (extractTgzVersions html) ≠ [] := by
      rcases hx : extractTgzVersions html with _ | ⟨x, xs⟩
      · exact absurd hx hv
      · exact List.ne_nil_of_mem (mem_dedupFirst.2 (List.mem_cons_self x xs))
    obtain ⟨m', t, hsort, hmem, hmax⟩ := sortDesc_spec _ hne
    rw [hsort] at hm
    have hm' : m' = m := by
      simpa using hm
    subst hm'
    have hmemv : m' ∈ extractTgzVersions html := mem_dedupFirst.1 hmem
    refine ⟨hmemv, ?_⟩
    intro v hv'
    have hge : jsGE m' v = true := hmax v (mem_dedupFirst.2 hv')
    obtain ⟨mc, hms, rfl⟩ := mem_extractTgzVersions hmemv
    obtain ⟨vc, hvs, rfl⟩ := mem_extractTgzVersions hv'
    obtain ⟨mn1, mn2, mn3, hmp⟩ := versionParts_shape hms
    obtain ⟨vn1, vn2, vn3, hvp⟩ := versionParts_shape hvs
    rw [jsGE_iff, hmp, hvp] at hge
    unfold specVersionLe
    rw [hmp, hvp]
    have hswap := compareParts_swap 3 [vn1, vn2, vn3] [mn1, mn2, mn3]
    rw [← compareParts3_lexCompare]
    rw [hswap]
    rcases hcmp : compareParts 3 [mn1, mn2, mn3] [vn1, vn2, vn3] with _ | _ | _
    · exact absurd hcmp hge
    · decide
    · decide

/-- Witness for C1: the spec's own example listing, plus the ordering
example (`1.90.10` is greater than `1.90.6`). -/
theorem claim_C1_witness :
    "1.92.0" ∈ extractTgzVersions "tailscale_1.90.6_amd64.tgz tailscale_1.92.0_amd64.tgz" ∧
    (∀ v ∈ extractTgzVersions "tailscale_1.90.6_amd64.tgz tailscale_1.92.0_amd64.tgz",
      specVersionLe v "1.92.0") ∧
    specVersionLe "1.90.6" "1.90.10" ∧ ¬ specVersionLe "1.90.10" "1.90.6" := by
  have h := claim_C1 "tailscale_1.90.6_amd64.tgz tailscale_1.92.0_amd64.tgz" none
    "1.92.0" (by decide)
  exact ⟨h.1, h.2, by decide, by decide⟩

/-! ## Lemmas: the workflow -/

theorem pkg_append (s : String) :
    ("tailscale_" ++ s ++ "_amd64") ++ ".tgz" = "tailscale_" ++ s ++ "_amd64.tgz" := by
  simp only [String.append_assoc]
  rw [show ("_amd64" ++ ".tgz" : String) = "_amd64.tgz" from rfl]

/-- C3: in every run, the config file is written at most once, and only with
a record whose `tailscaleVersion` is built from a successfully fetched latest
version and whose `tailscaleSHA256` is exactly the checksum fetched for the
artifact named by that new `tailscaleVersion`. -/
theorem claim_C3 (env : Env) (today : SysDate) :
    (writeEvents (main env today)).length ≤ 1 ∧
    ∀ cfg', Event.configWritten cfg' ∈ (main env today).events →
      ∃ cfg latest sha,
        env.readResult = some cfg ∧
        fetchLatestTailscaleVersion env.stableListing env.githubTag = some latest ∧
        latest ≠ "" ∧
        cfg'.tailscaleVersion = "tailscale_" ++ latest ++ "_amd64" ∧
        cfg'.tailscaleSHA256 = sha ∧
        fetchSHA256 env.shaFile env.stablePage (cfg'.tailscaleVersion ++ ".tgz") = some sha ∧
        sha ≠ "" := by
  unfold main
  rcases hr : env.readResult with _ | cfg0
  · simp [writeEvents]
  · dsimp only
    rcases hl : fetchLatestTailscaleVersion env.stableListing env.githubTag with _ | latest
    · simp [writeEvents]
    · dsimp only
      by_cases hne : latest = ""
      · rw [if_pos hne]
        simp [writeEvents]
      · rw [if_neg hne]
        by_cases hcur : extractVersion cfg0.tailscaleVersion = latest
        · rw [if_pos hcur]
          simp [writeEvents]
        · rw [if_neg hcur]
          rcases hsha : fetchSHA256 env.shaFile env.stablePage
              ("tailscale_" ++ latest ++ "_amd64.tgz") with _ | sha
          · simp [writeEvents]
          · dsimp only
            by_cases hshane : sha = ""
            · rw [if_pos hshane]
              simp [writeEvents]
            · rw [if_neg hshane]
              by_cases hw : env.writeOk = true
              · rw [if_pos hw]
                by_cases hb : env.buildResult = some 0
                · rw [if_pos hb]
                  constructor
                  · simp [writeEvents]
                  · intro cfg' hin
                    simp only [List.mem_cons, List.not_mem_nil, or_false] at hin
                    rcases hin with h | h | h
                    · cases h
                    · injection h with h'
                      subst h'
                      refine ⟨cfg0, latest, sha, rfl, rfl, hne, rfl, rfl, ?_, hshane⟩
                      show fetchSHA256 env.shaFile env.stablePage
                        (("tailscale_" ++ latest ++ "_amd64") ++ ".tgz") = some sha
                      rw [pkg_append]
                      exact hsha
                    · cases h
                · rw [if_neg hb]
                  constructor
                  · simp [writeEvents]
                  · intro cfg' hin
                    simp only [List.mem_cons, List.not_mem_nil, or_false] at hin
                    rcases hin with h | h | h
                    · cases h
                    · injection h with h'
                      subst h'
                      refine ⟨cfg0, latest, sha, rfl, rfl, hne, rfl, rfl, ?_, hshane⟩
                      show fetchSHA256 env.shaFile env.stablePage
                        (("tailscale_" ++ latest ++ "_amd64") ++ ".tgz") = some sha
                      rw [pkg_append]
                      exact hsha
                    · cases h
              · rw [if_neg hw]
                simp [writeEvents]

/-- Witness for C3: the successful update path of `envW` performs exactly
one write, of a record tied to the fetched version and checksum. -/
theorem claim_C3_witness :
    (writeEvents (main envW dateW)).length ≤ 1 ∧
    ∃ cfg latest sha,
      envW.readResult = some cfg ∧
      fetchLatestTailscaleVersion envW.stableListing envW.githubTag = some latest ∧
      latest ≠ "" ∧
      cfgNewW.tailscaleVersion = "tailscale_" ++ latest ++ "_amd64" ∧
      cfgNewW.tailscaleSHA256 = sha ∧
      fetchSHA256 envW.shaFile envW.stablePage (cfgNewW.tailscaleVersion ++ ".tgz") = some sha ∧
      sha ≠ "" := by
  have h := claim_C3 envW dateW
  exact ⟨h.1, h.2 cfgNewW (by decide)⟩

/-- The up-to-date exit: equal version strings end the run with exit code 0,
no write, no build, no checksum request. -/
theorem main_upToDate (env : Env) (today : SysDate) (cfg : TailscaleConfig)
    (latest : String)
    (hr : env.readResult = some cfg)
    (hl : fetchLatestTailscaleVersion env.stableListing env.githubTag = some latest)
    (hne : latest ≠ "")
    (hcur : extractVersion cfg.tailscaleVersion = latest) :
    main env today = ⟨0, []⟩ := by
  unfold main
  rw [hr]
  dsimp only
  rw [hl]
  dsimp only
  rw [if_neg hne, if_pos hcur]

/-- Differing version strings reach the checksum request. -/
theorem main_reaches_sha (env : Env) (today : SysDate) (cfg : TailscaleConfig)
    (latest : String)
    (hr : env.readResult = some cfg)
    (hl : fetchLatestTailscaleVersion env.stableListing env.githubTag = some latest)
    (hne : latest ≠ "")
    (hcur : extractVersion cfg.tailscaleVersion ≠ latest) :
    Event.shaRequested ("tailscale_" ++ latest ++ "_amd64.tgz") ∈ (main env today).events := by
  unfold main
  rw [hr]
  dsimp only
  rw [hl]
  dsimp only
  rw [if_neg hne, if_neg hcur]
  rcases fetchSHA256 env.shaFile env.stablePage ("tailscale_" ++ latest ++ "_amd64.tgz")
      with _ | sha
  · simp
  · dsimp only
    by_cases hsh : sha = ""
    · rw [if_pos hsh]; simp
    · rw [if_neg hsh]
      by_cases hw : env.writeOk = true
      · rw [if_pos hw]
        by_cases hb : env.buildResult = some 0
        · rw [if_pos hb]; simp
        · rw [if_neg hb]; simp
      · rw [if_neg hw]; simp

/-- C5 (amended): provided the fetched latest version is nonempty, exact
string equality of the extracted current version with it ends the run with
exit code 0, no write and no build, and inequality proceeds to the update
path (the checksum request is issued). -/
theorem claim_C5_amended (env : Env) (today : SysDate) (cfg : TailscaleConfig)
    (latest : String)
    (hr : env.readResult = some cfg)
    (hl : fetchLatestTailscaleVersion env.stableListing env.githubTag = some latest)
    (hne : latest ≠ "") :
    (extractVersion cfg.tailscaleVersion = latest → main env today = ⟨0, []⟩) ∧
    (extractVersion cfg.tailscaleVersion ≠ latest →
      Event.shaRequested ("tailscale_" ++ latest ++ "_amd64.tgz") ∈ (main env today).events) :=
  ⟨fun hcur => main_upToDate env today cfg latest hr hl hne hcur,
   fun hcur => main_reaches_sha env today cfg latest hr hl hne hcur⟩

/-- Counterexample to C5 as stated: with a malformed stored identifier and a
fetched latest version that is the empty string (GitHub tag `"v"`), the
extracted current version and the fetched latest version are equal as
strings, yet the workflow exits with code 1, not 0. -/
theorem claim_C5_counterexample :
    extractVersion ({ cfgW with tailscaleVersion := "bogus" } : TailscaleConfig).tailscaleVersion = "" ∧
    fetchLatestTailscaleVersion envEmptyLatestW.stableListing envEmptyLatestW.githubTag =
      some "" ∧
    envEmptyLatestW.readResult = some { cfgW with tailscaleVersion := "bogus" } ∧
    main envEmptyLatestW dateW = ⟨1, []⟩ := by
  refine ⟨by decide, by decide, by decide, by decide⟩

/-- Witness for C5 (amended): both halves at concrete runs. -/
theorem claim_C5_witness :
    main envUpToDateW dateW = ⟨0, []⟩ ∧
    Event.shaRequested "tailscale_1.92.0_amd64.tgz" ∈ (main envW dateW).events := by
  constructor
  · exact (claim_C5_amended envUpToDateW dateW cfgW "1.90.6"
      (by decide) (by decide) (by decide)).1 (by decide)
  · exact (claim_C5_amended envW dateW cfgW "1.92.0"
      (by decide) (by decide) (by decide)).2 (by decide)

/-- A successful primary fetch returns one of the scraped versions. -/
theorem fetchPrimary_mem {html : String} {tag? : Option String} {m : String}
    (hm : fetchLatestTailscaleVersion (FetchOutcome.ok html) tag? = some m) :
    m ∈ extractTgzVersions html := by
  unfold fetchLatestTailscaleVersion at hm
  dsimp only at hm
  by_cases hv : extractTgzVersions html = []
  · rw [if_pos hv] at hm
    cases hm
  · rw [if_neg hv] at hm
    have hne : dedupFirst (extractTgzVersions html) ≠ [] := by
      rcases hx : extractTgzVersions html with _ | ⟨x, xs⟩
      · exact absurd hx hv
      · exact List.ne_nil_of_mem (mem_dedupFirst.2 (List.mem_cons_self x xs))
    obtain ⟨m', t, hsort, hmem, _⟩ := sortDesc_spec _ hne
    rw [hsort] at hm
    have hm' : m' = m := by simpa using hm
    subst hm'
    exact mem_dedupFirst.1 hmem

/-- A version fetched by the primary strategy is never the empty string. -/
theorem fetchPrimary_ne_empty {html : String} {tag? : Option String} {m : String}
    (hm : fetchLatestTailscaleVersion (FetchOutcome.ok html) tag? = some m) :
    m ≠ "" := by
  obtain ⟨vc, hshape, rfl⟩ := mem_extractTgzVersions (fetchPrimary_mem hm)
  intro h0
  have hv : vc = [] := by
    have := congrArg String.data h0
    simpa using this
  exact versionShape_ne_nil hshape hv

/-- C6: a stored `tailscaleVersion` not containing the pattern extracts to
the empty string; the empty string never equals a version fetched by the
primary strategy; hence, with the primary strategy succeeding, malformed
stored state always proceeds to the update path instead of failing. -/
theorem claim_C6 :
    (∀ s : String, (∀ i v, ¬ OccAt s.toList i v) → extractVersion s = "") ∧
    (∀ (html : String) (tag? : Option String) (latest : String),
      fetchLatestTailscaleVersion (FetchOutcome.ok html) tag? = some latest →
      latest ≠ "") ∧
    (∀ (env : Env) (today : SysDate) (cfg : TailscaleConfig) (html latest : String),
      env.readResult = some cfg →
      env.stableListing = FetchOutcome.ok html →
      fetchLatestTailscaleVersion env.stableListing env.githubTag = some latest →
      extractVersion cfg.tailscaleVersion = "" →
      Event.shaRequested ("tailscale_" ++ latest ++ "_amd64.tgz") ∈ (main env today).events) := by
  refine ⟨?_, ?_, ?_⟩
  · intro s h
    unfold extractVersion
    rcases hf : findFirstMatch s.toList with _ | v
    · rfl
    · obtain ⟨i, hi⟩ := ffm_some_occ hf
      exact absurd hi (h i v)
  · intro html tag? latest hl
    exact fetchPrimary_ne_empty hl
  · intro env today cfg html latest hr hlist hl hext
    have hl' : fetchLatestTailscaleVersion (FetchOutcome.ok html) env.githubTag = some latest := by
      rw [← hlist]
      exact hl
    have hne : latest ≠ "" := fetchPrimary_ne_empty hl'
    have hcur : extractVersion cfg.tailscaleVersion ≠ latest := by
      rw [hext]
      exact fun he => hne he.symm
    exact main_reaches_sha env today cfg latest hr hl hne hcur

/-- Witness for C6. -/
theorem claim_C6_witness :
    extractVersion "bogus" = "" ∧
    Event.shaRequested "tailscale_1.92.0_amd64.tgz" ∈
      (main { envW with readResult := some { cfgW with tailscaleVersion := "bogus" } } dateW).events := by
  constructor
  · exact claim_C6.1 "bogus" (by
      intro i v hocc
      have h5 : ("bogus" : String).toList.length = 5 := by decide
      obtain ⟨_, pre, post, _, hs⟩ := hocc
      have := congrArg List.length hs
      rw [h5] at this
      simp [tsLead, amdTail] at this
      omega)
  · exact claim_C6.2.2 { envW with readResult := some { cfgW with tailscaleVersion := "bogus" } }
      dateW { cfgW with tailscaleVersion := "bogus" }
      "tailscale_1.90.6_amd64.tgz tailscale_1.92.0_amd64.tgz" "1.92.0"
      (by decide) (by decide) (by decide) (by decide)

/-- Counterexample to C7 as stated: the tag `V1.2.3` starts with the
non-numeric version-prefix character `V`, yet the fallback returns it
unchanged instead of stripping the first character. -/
theorem claim_C7_counterexample :
    fetchLatestTailscaleVersion FetchOutcome.threw (some "V1.2.3") = some "V1.2.3" ∧
    fetchLatestVersionFromGitHub (some "V1.2.3") = some "V1.2.3" ∧
    ('V'.isDigit = false) ∧
    "V1.2.3" ≠ String.mk ("V1.2.3".toList.drop 1) := by
  refine ⟨by decide, by decide, by decide, by decide⟩

/-- C7 (amended): when the primary source fails, the fallback returns the
release tag with a single leading lowercase `'v'` (and only that character)
stripped; every tag starting with any other character, in particular with a
digit, is returned unchanged. -/
theorem claim_C7_amended (stable : FetchOutcome) (tag : String)
    (hfail : stable = FetchOutcome.threw ∨ stable = FetchOutcome.notOk) :
    fetchLatestTailscaleVersion stable (some tag) =
      some (if beginsWith ['v'] tag.toList then String.mk (tag.toList.drop 1) else tag) ∧
    (∀ c cs, tag.toList = c :: cs → c.isDigit = true →
      fetchLatestTailscaleVersion stable (some tag) = some tag) := by
  have hfb : fetchLatestTailscaleVersion stable (some tag) =
      fetchLatestVersionFromGitHub (some tag) := by
    rcases hfail with rfl | rfl <;> rfl
  constructor
  · rw [hfb]
    rfl
  · intro c cs htl hc
    rw [hfb]
    unfold fetchLatestVersionFromGitHub
    dsimp only
    have hbw : beginsWith ['v'] tag.toList = false := by
      rw [htl]
      unfold beginsWith
      by_cases hv : 'v' = c
      · rw [← hv] at hc
        simp at hc
      · simp [hv]
    rw [hbw]
    rfl

/-- Witness for C7 (amended). -/
theorem claim_C7_witness :
    fetchLatestTailscaleVersion FetchOutcome.threw (some "v1.2.3") = some "1.2.3" ∧
    fetchLatestTailscaleVersion FetchOutcome.notOk (some "1.2.3") = some "1.2.3" := by
  constructor
  · exact ((claim_C7_amended FetchOutcome.threw "v1.2.3" (Or.inl rfl)).1).trans (by decide)
  · exact (claim_C7_amended FetchOutcome.notOk "1.2.3" (Or.inr rfl)).2 '1' ".2.3".toList
      (by decide) (by decide)

/-- C8: a failing build after the config rewrite exits with code 1, keeps
the single written config (no rollback), and no write occurs after the
build is invoked. -/
theorem claim_C8 (env : Env) (today : SysDate) (cfg : TailscaleConfig)
    (latest sha : String)
    (hr : env.readResult = some cfg)
    (hl : fetchLatestTailscaleVersion env.stableListing env.githubTag = some latest)
    (hne : latest ≠ "")
    (hcur : extractVersion cfg.tailscaleVersion ≠ latest)
    (hsha : fetchSHA256 env.shaFile env.stablePage ("tailscale_" ++ latest ++ "_amd64.tgz") =
      some sha)
    (hshane : sha ≠ "")
    (hw : env.writeOk = true)
    (hb : env.buildResult ≠ some 0) :
    main env today =
      ⟨1, [Event.shaRequested ("tailscale_" ++ latest ++ "_amd64.tgz"),
           Event.configWritten
             { cfg with
               version := getCurrentDate today
               tailscaleVersion := "tailscale_" ++ latest ++ "_amd64"
               tailscaleSHA256 := sha },
           Event.buildInvoked]⟩ ∧
    (∀ l r, (main env today).events = l ++ Event.buildInvoked :: r →
      ∀ c, Event.configWritten c ∉ r) := by
  have heq : main env today =
      ⟨1, [Event.shaRequested ("tailscale_" ++ latest ++ "_amd64.tgz"),
           Event.configWritten
             { cfg with
               version := getCurrentDate today
               tailscaleVersion := "tailscale_" ++ latest ++ "_amd64"
               tailscaleSHA256 := sha },
           Event.buildInvoked]⟩ := by
    unfold main
    rw [hr]
    dsimp only
    rw [hl]
    dsimp only
    rw [if_neg hne, if_neg hcur, hsha]
    dsimp only
    rw [if_neg hshane, if_pos hw, if_neg hb]
  refine ⟨heq, ?_⟩
  intro l r hev c
  rw [heq] at hev
  dsimp only at hev
  rcases l with _ | ⟨a1, l⟩
  · simp at hev
  · rcases l with _ | ⟨a2, l⟩
    · simp at hev
    · rcases l with _ | ⟨a3, l⟩
      · simp only [List.cons_append, List.nil_append, List.cons.injEq] at hev
        obtain ⟨-, -, -, hr'⟩ := hev
        rw [← hr']
        simp
      · have hlen := congrArg List.length hev
        simp only [List.length_cons, List.length_append, List.length_nil] at hlen
        omega

/-- Witness for C8: concrete failing build after a write. -/
theorem claim_C8_witness :
    main envBuildFailW dateW =
      ⟨1, [Event.shaRequested "tailscale_1.92.0_amd64.tgz",
           Event.configWritten cfgNewW, Event.buildInvoked]⟩ := by
  have h := (claim_C8 envBuildFailW dateW cfgW "1.92.0"
      "0123456789abcdef0123456789abcdef0123456789abcdef0123456789abcdef"
      (by decide) (by decide) (by decide) (by decide) (by decide) (by decide)
      (by decide) (by decide)).1
  exact h.trans (by decide)

/-- Counterexample to C2 as stated: on `update.ts`, an ok checksum response
whose first token is `deadbeef` (not 64 hex characters) is accepted, the
config is written with that token as `tailscaleSHA256`, and the run exits 0. -/
theorem claim_C2_counterexample :
    fetchSHA256 envBadShaW.shaFile envBadShaW.stablePage "tailscale_1.92.0_amd64.tgz" =
      some "deadbeef" ∧
    isSha256Hex "deadbeef" = false ∧
    main envBadShaW dateW =
      ⟨0, [Event.shaRequested "tailscale_1.92.0_amd64.tgz",
           Event.configWritten
             ⟨"tailscale", "louislam", "unraid-6.12-tailscale", "2026.10.12",
              "tailscale_1.92.0_amd64", "deadbeef", "1", "pkgsha", "plugdir",
              "confdir", "6.12"⟩,
           Event.buildInvoked]⟩ := by
  refine ⟨by decide, by decide, by decide⟩

/-- C2 (amended): `update.ts` returns the first whitespace-delimited token of
an ok `.sha256` response without validation; the 64-hex validation lives in
the `V3` revision, whose `fetchSHA256` rejects any body whose first token is
not exactly 64 hex characters (and accepts and returns a 64-hex token), and
whose workflow then exits 1 without any config write whenever the checksum
step was reached. -/
theorem claim_C2_amended (body : String) (pkg : String) (page : FetchOutcome)
    (env : Env) (today : SysDate) :
    fetchSHA256 (FetchOutcome.ok body) page pkg = some (firstToken body) ∧
    fetchSHA256V3 (FetchOutcome.ok body) pkg =
      (if isSha256Hex (firstToken body) then some (firstToken body) else none) ∧
    (env.shaFile = FetchOutcome.ok body → isSha256Hex (firstToken body) = false →
      (∀ cfg', Event.configWritten cfg' ∉ (mainV3 env today).events) ∧
      (∀ p, Event.shaRequested p ∈ (mainV3 env today).events →
        (mainV3 env today).exitCode = 1)) := by
  refine ⟨rfl, rfl, ?_⟩
  intro hsf hbad
  have hshaV3 : ∀ q : String, fetchSHA256V3 env.shaFile q = none := by
    intro q
    rw [hsf]
    unfold fetchSHA256V3
    dsimp only
    simp [hbad]
  unfold mainV3
  rcases hr : env.readResult with _ | cfg0
  · exact ⟨by simp, by simp⟩
  · dsimp only
    rcases hl : fetchLatestTailscaleVersionV3 env.stableListing env.githubTag with _ | latest
    · exact ⟨by simp, by simp⟩
    · dsimp only
      by_cases hne : latest = ""
      · rw [if_pos hne]
        exact ⟨by simp, by simp⟩
      · rw [if_neg hne]
        by_cases hcur : extractVersion cfg0.tailscaleVersion = latest
        · rw [if_pos hcur]
          exact ⟨by simp, by simp⟩
        · rw [if_neg hcur]
          rw [hshaV3]
          exact ⟨by simp, by simp⟩

/-- Witness for C2 (amended): acceptance of a valid digest, rejection of an
invalid one, and the no-write exit-1 outcome of the `V3` workflow. -/
theorem claim_C2_witness :
    fetchSHA256 (FetchOutcome.ok "deadbeef  tailscale_1.92.0_amd64.tgz")
      FetchOutcome.threw "tailscale_1.92.0_amd64.tgz" = some "deadbeef" ∧
    fetchSHA256V3 (FetchOutcome.ok shaBodyW) "tailscale_1.92.0_amd64.tgz" =
      some "0123456789abcdef0123456789abcdef0123456789abcdef0123456789abcdef" ∧
    fetchSHA256V3 (FetchOutcome.ok "deadbeef  tailscale_1.92.0_amd64.tgz")
      "tailscale_1.92.0_amd64.tgz" = none ∧
    (∀ cfg', Event.configWritten cfg' ∉ (mainV3 envBadShaW dateW).events) ∧
    (mainV3 envBadShaW dateW).exitCode = 1 := by
  have h := claim_C2_amended "deadbeef  tailscale_1.92.0_amd64.tgz"
    "tailscale_1.92.0_amd64.tgz" FetchOutcome.threw envBadShaW dateW
  have h2 := claim_C2_amended shaBodyW "tailscale_1.92.0_amd64.tgz"
    FetchOutcome.threw envBadShaW dateW
  refine ⟨h.1.trans (by decide), h2.2.1.trans (by decide), (h.2.1).trans (by decide),
    (h.2.2 (by decide) (by decide)).1,
    (h.2.2 (by decide) (by decide)).2 "tailscale_1.92.0_amd64.tgz" (by decide)⟩

/-! ## Lemmas: decimal printing of the date -/

theorem decDigit_isDigit {n : Nat} (h : n < 10) : (decDigit n).isDigit = true := by
  interval_cases n <;> decide

theorem decReprAux_spec : ∀ n : Nat, ∀ f : Nat, n ≤ f →
    (decReprAux (f + 1) n).length = Nat.log 10 n + 1 ∧
    ∀ c ∈ decReprAux (f + 1) n, c.isDigit = true := by
  intro n
  induction n using Nat.strong_induction_on with
  | _ n ih =>
    intro f hf
    have heq : decReprAux (f + 1) n =
        if n < 10 then [decDigit n]
        else decReprAux f (n / 10) ++ [decDigit (n % 10)] := rfl
    by_cases h10 : n < 10
    · rw [heq, if_pos h10]
      constructor
      · have : Nat.log 10 n = 0 := Nat.log_eq_zero_iff.2 (Or.inl h10)
        simp [this]
      · intro c hc
        simp only [List.mem_singleton] at hc
        subst hc
        exact decDigit_isDigit h10
    · obtain ⟨f', rfl⟩ : ∃ f', f = f' + 1 := ⟨f - 1, by omega⟩
      have hdiv : n / 10 < n := Nat.div_lt_self (by omega) (by omega)
      have hle : n / 10 ≤ f' := by
        have := Nat.div_le_self n 10
        omega
      obtain ⟨ihlen, ihdig⟩ := ih (n / 10) hdiv f' hle
      rw [heq, if_neg h10]
      constructor
      · rw [List.length_append, ihlen]
        have hpos : 0 < Nat.log 10 n := Nat.log_pos (by omega) (by omega)
        have hdb := Nat.log_div_base 10 n
        simp
        omega
      · intro c hc
        rcases List.mem_append.1 hc with hc | hc
        · exact ihdig c hc
        · simp only [List.mem_singleton] at hc
          subst hc
          exact decDigit_isDigit (Nat.mod_lt _ (by omega))

theorem natStr_spec (n : Nat) :
    (natStr n).toList.length = Nat.log 10 n + 1 ∧
    ∀ c ∈ (natStr n).toList, c.isDigit = true :=
  decReprAux_spec n n le_rfl

theorem natStr_len4 {n : Nat} (h1 : 1000 ≤ n) (h2 : n ≤ 9999) :
    (natStr n).toList.length = 4 := by
  rw [(natStr_spec n).1]
  have : Nat.log 10 n = 3 :=
    Nat.log_eq_of_pow_le_of_lt_pow (by norm_num [h1]) (by norm_num; omega)
  omega

theorem natStr_len_le2 {n : Nat} (h : n ≤ 99) : (natStr n).toList.length ≤ 2 := by
  rw [(natStr_spec n).1]
  rcases Nat.eq_zero_or_pos n with rfl | hpos
  · simp
  · have : Nat.log 10 n < 2 := Nat.log_lt_of_lt_pow (by omega) (by norm_num; omega)
    omega

theorem padStart2_len {s : String} (h : s.toList.length ≤ 2) :
    (padStart2 s).toList.length = 2 := by
  show (List.replicate (2 - s.toList.length) '0' ++ s.toList).length = 2
  rw [List.length_append, List.length_replicate]
  omega

theorem padStart2_digits {s : String} (h : ∀ c ∈ s.toList, c.isDigit = true) :
    ∀ c ∈ (padStart2 s).toList, c.isDigit = true := by
  intro c hc
  have hc' : c ∈ List.replicate (2 - s.toList.length) '0' ++ s.toList := hc
  rcases List.mem_append.1 hc' with hc'' | hc''
  · rw [List.eq_of_mem_replicate hc'']
    decide
  · exact h c hc''

/-- C4: on the update path, the written record carries the current date in
`YYYY.MM.DD` (4-digit year, zero-padded 2-digit month and day), the
upstream identifier `tailscale_<latest>_amd64`, the fetched digest, and all
other eight fields unchanged from the stored record. -/
theorem claim_C4 (env : Env) (today : SysDate) (cfg : TailscaleConfig)
    (latest sha : String)
    (hr : env.readResult = some cfg)
    (hl : fetchLatestTailscaleVersion env.stableListing env.githubTag = some latest)
    (hne : latest ≠ "")
    (hcur : extractVersion cfg.tailscaleVersion ≠ latest)
    (hsha : fetchSHA256 env.shaFile env.stablePage ("tailscale_" ++ latest ++ "_amd64.tgz") =
      some sha)
    (hshane : sha ≠ "")
    (hw : env.writeOk = true)
    (hy1 : 1000 ≤ today.year) (hy2 : today.year ≤ 9999)
    (hmo : today.month ≤ 12) (hdy : today.day ≤ 31) :
    writeEvents (main env today) =
      [⟨cfg.name, cfg.author, cfg.githubRepository, getCurrentDate today,
        "tailscale_" ++ latest ++ "_amd64", sha, cfg.packageVersion,
        cfg.packageSHA256, cfg.pluginDirectory, cfg.configDirectory,
        cfg.minver⟩] ∧
    (∃ ys ms ds : String,
      getCurrentDate today = ys ++ "." ++ ms ++ "." ++ ds ∧
      ys.toList.length = 4 ∧ (∀ c ∈ ys.toList, c.isDigit = true) ∧
      ms.toList.length = 2 ∧ (∀ c ∈ ms.toList, c.isDigit = true) ∧
      ds.toList.length = 2 ∧ (∀ c ∈ ds.toList, c.isDigit = true)) := by
  constructor
  · unfold main
    rw [hr]
    dsimp only
    rw [hl]
    dsimp only
    rw [if_neg hne, if_neg hcur, hsha]
    dsimp only
    rw [if_neg hshane, if_pos hw]
    by_cases hb : env.buildResult = some 0
    · rw [if_pos hb]
      rfl
    · rw [if_neg hb]
      rfl
  · refine ⟨natStr today.year, padStart2 (natStr today.month),
      padStart2 (natStr today.day), rfl, natStr_len4 hy1 hy2, (natStr_spec today.year).2,
      padStart2_len (natStr_len_le2 (by omega)), padStart2_digits (natStr_spec today.month).2,
      padStart2_len (natStr_len_le2 (by omega)), padStart2_digits (natStr_spec today.day).2⟩

/-- Witness for C4: the concrete successful update of `envW` on 2026-10-12. -/
theorem claim_C4_witness :
    writeEvents (main envW dateW) = [cfgNewW] ∧
    getCurrentDate dateW = "2026.10.12" := by
  have h := claim_C4 envW dateW cfgW "1.92.0"
    "0123456789abcdef0123456789abcdef0123456789abcdef0123456789abcdef"
    (by decide) (by decide) (by decide) (by decide) (by decide) (by decide)
    (by decide) (by decide) (by decide) (by decide) (by decide)
  exact ⟨h.1.trans (by decide), by decide⟩

/-! ## Lemmas: JSON string escaping round-trips -/

theorem hexVal_hexDigChar {n : Nat} (h : n < 16) : hexVal (hexDigChar n) = some n := by
  interval_cases n <;> decide

theorem parseStrBody_close (l : List Char) :
    parseStrBody (quoteC :: l) = some ([], l) := by
  conv_lhs => unfold parseStrBody
  rw [if_pos rfl]

theorem parseStrBody_cons_plain {c : Char} (h1 : ¬ c = quoteC) (h2 : ¬ c = bslC)
    (h3 : ¬ c.toNat < 32) (l : List Char) :
    parseStrBody (c :: l) = (parseStrBody l).map (fun p => (c :: p.1, p.2)) := by
  conv_lhs => unfold parseStrBody
  rw [if_neg h1, if_neg h2, if_neg h3]
  rcases parseStrBody l with _ | ⟨s, r⟩ <;> rfl

theorem parseStrBody_simple_escape {e d : Char} (he : ¬ e = 'u')
    (hd : escDecode e = some d) (l : List Char) :
    parseStrBody (bslC :: e :: l) = (parseStrBody l).map (fun p => (d :: p.1, p.2)) := by
  conv_lhs => unfold parseStrBody
  rw [if_neg (by decide : ¬ (bslC = quoteC)), if_pos rfl]
  try dsimp only
  rw [if_neg he, hd]
  rcases parseStrBody l with _ | ⟨s, r⟩ <;> rfl

theorem parseStrBody_unicode {a b c d : Char} {v1 v2 v3 v4 : Nat}
    (e1 : hexVal a = some v1) (e2 : hexVal b = some v2)
    (e3 : hexVal c = some v3) (e4 : hexVal d = some v4) (l : List Char) :
    parseStrBody (bslC :: 'u' :: a :: b :: c :: d :: l) =
      (parseStrBody l).map
        (fun p => (Char.ofNat (((v1 * 16 + v2) * 16 + v3) * 16 + v4) :: p.1, p.2)) := by
  conv_lhs => unfold parseStrBody
  rw [if_neg (by decide : ¬ (bslC = quoteC)), if_pos rfl]
  try dsimp only
  rw [if_pos rfl]
  try dsimp only
  rw [e1, e2, e3, e4]
  rcases parseStrBody l with _ | ⟨s, r⟩ <;> rfl

theorem parseStrBody_escape : ∀ (s rest : List Char),
    parseStrBody (escapeList s ++ quoteC :: rest) = some (s, rest) := by
  intro s
  induction s with
  | nil =>
    intro rest
    exact parseStrBody_close rest
  | cons c s ih =>
    intro rest
    rw [show escapeList (c :: s) = escChar c ++ escapeList s from rfl, List.append_assoc]
    by_cases h1 : c = quoteC
    · subst h1
      rw [show escChar quoteC = [bslC, quoteC] from rfl,
        show ([bslC, quoteC] : List Char) ++ (escapeList s ++ quoteC :: rest) =
          bslC :: quoteC :: (escapeList s ++ quoteC :: rest) from rfl,
        parseStrBody_simple_escape (by decide) (by decide : escDecode quoteC = some quoteC),
        ih rest]
      rfl
    · by_cases h2 : c = bslC
      · subst h2
        rw [show escChar bslC = [bslC, bslC] from rfl,
          show ([bslC, bslC] : List Char) ++ (escapeList s ++ quoteC :: rest) =
            bslC :: bslC :: (escapeList s ++ quoteC :: rest) from rfl,
          parseStrBody_simple_escape (by decide) (by decide : escDecode bslC = some bslC),
          ih rest]
        rfl
      · by_cases h3 : c = Char.ofNat 8
        · subst h3
          rw [show escChar (Char.ofNat 8) = [bslC, 'b'] from rfl,
            show ([bslC, 'b'] : List Char) ++ (escapeList s ++ quoteC :: rest) =
              bslC :: 'b' :: (escapeList s ++ quoteC :: rest) from rfl,
            parseStrBody_simple_escape (by decide)
              (by decide : escDecode 'b' = some (Char.ofNat 8)),
            ih rest]
          rfl
        · by_cases h4 : c = Char.ofNat 9
          · subst h4
            rw [show escChar (Char.ofNat 9) = [bslC, 't'] from rfl,
              show ([bslC, 't'] : List Char) ++ (escapeList s ++ quoteC :: rest) =
                bslC :: 't' :: (escapeList s ++ quoteC :: rest) from rfl,
              parseStrBody_simple_escape (by decide)
                (by decide : escDecode 't' = some (Char.ofNat 9)),
              ih rest]
            rfl
          · by_cases h5 : c = Char.ofNat 10
            · subst h5
              rw [show escChar (Char.ofNat 10) = [bslC, 'n'] from rfl,
                show ([bslC, 'n'] : List Char) ++ (escapeList s ++ quoteC :: rest) =
                  bslC :: 'n' :: (escapeList s ++ quoteC :: rest) from rfl,
                parseStrBody_simple_escape (by decide)
                  (by decide : escDecode 'n' = some (Char.ofNat 10)),
                ih rest]
              rfl
            · by_cases h6 : c = Char.ofNat 12
              · subst h6
                rw [show escChar (Char.ofNat 12) = [bslC, 'f'] from rfl,
                  show ([bslC, 'f'] : List Char) ++ (escapeList s ++ quoteC :: rest) =
                    bslC :: 'f' :: (escapeList s ++ quoteC :: rest) from rfl,
                  parseStrBody_simple_escape (by decide)
                    (by decide : escDecode 'f' = some (Char.ofNat 12)),
                  ih rest]
                rfl
              · by_cases h7 : c = Char.ofNat 13
                · subst h7
                  rw [show escChar (Char.ofNat 13) = [bslC, 'r'] from rfl,
                    show ([bslC, 'r'] : List Char) ++ (escapeList s ++ quoteC :: rest) =
                      bslC :: 'r' :: (escapeList s ++ quoteC :: rest) from rfl,
                    parseStrBody_simple_escape (by decide)
                      (by decide : escDecode 'r' = some (Char.ofNat 13)),
                    ih rest]
                  rfl
                · by_cases h8 : c.toNat < 32
                  · have hesc : escChar c =
                        [bslC, 'u', '0', '0', hexDigChar (c.toNat / 16),
                         hexDigChar (c.toNat % 16)] := by
                      unfold escChar
                      rw [if_neg h1, if_neg h2, if_neg h3, if_neg h4, if_neg h5,
                        if_neg h6, if_neg h7, if_pos h8]
                    rw [hesc,
                      show ([bslC, 'u', '0', '0', hexDigChar (c.toNat / 16),
                          hexDigChar (c.toNat % 16)] : List Char) ++
                          (escapeList s ++ quoteC :: rest) =
                        bslC :: 'u' :: '0' :: '0' :: hexDigChar (c.toNat / 16) ::
                          hexDigChar (c.toNat % 16) ::
                          (escapeList s ++ quoteC :: rest) from rfl,
                      parseStrBody_unicode (by decide : hexVal '0' = some 0)
                        (by decide : hexVal '0' = some 0)
                        (hexVal_hexDigChar (by omega))
                        (hexVal_hexDigChar (Nat.mod_lt _ (by omega))),
                      ih rest]
                    have hval : ((0 * 16 + 0) * 16 + c.toNat / 16) * 16 + c.toNat % 16 =
                        c.toNat := by omega
                    rw [hval, Char.ofNat_toNat]
                    rfl
                  · have hesc : escChar c = [c] := by
                      unfold escChar
                      rw [if_neg h1, if_neg h2, if_neg h3, if_neg h4, if_neg h5,
                        if_neg h6, if_neg h7, if_neg h8]
                    rw [hesc,
                      show ([c] : List Char) ++ (escapeList s ++ quoteC :: rest) =
                        c :: (escapeList s ++ quoteC :: rest) from rfl,
                      parseStrBody_cons_plain h1 h2 h8, ih rest]
                    rfl

theorem parseStringLit_of (s rest : List Char) :
    parseStringLit (quoteC :: (escapeList s ++ quoteC :: rest)) = some (s, rest) := by
  unfold parseStringLit
  dsimp only
  rw [if_pos rfl]
  exact parseStrBody_escape s rest

/-! ## Lemmas: JSON whitespace and object members -/

theorem skipWs_cons_ws {c : Char} (h : isWsChar c = true) (l : List Char) :
    skipWs (c :: l) = skipWs l := by
  conv_lhs => unfold skipWs
  try dsimp only
  rw [if_pos h]

theorem skipWs_cons_not {c : Char} (h : isWsChar c = false) (l : List Char) :
    skipWs (c :: l) = c :: l := by
  conv_lhs => unfold skipWs
  try dsimp only
  rw [if_neg (by simp [h])]

theorem skipWs_indent (Y : List Char) : skipWs ('\n' :: sp4 ++ Y) = skipWs Y := by
  rw [show ('\n' :: sp4 ++ Y : List Char) =
    '\n' :: ' ' :: ' ' :: ' ' :: ' ' :: Y from rfl]
  rw [skipWs_cons_ws (by decide), skipWs_cons_ws (by decide),
    skipWs_cons_ws (by decide), skipWs_cons_ws (by decide), skipWs_cons_ws (by decide)]

theorem parseMembersAux_congr {l l' : List Char} (h : skipWs l = skipWs l') :
    ∀ f, parseMembersAux f l = parseMembersAux f l' := by
  intro f
  cases f with
  | zero => rfl
  | succ f =>
    unfold parseMembersAux
    rw [h]

theorem fieldChunk_append (k v : String) (X : List Char) :
    fieldChunk k v ++ X =
      quoteC :: (escapeList k.toList ++ quoteC :: ':' :: ' ' ::
        quoteC :: (escapeList v.toList ++ quoteC :: X)) := by
  simp [fieldChunk]

theorem parseMembersAux_member (f : Nat) (k v : String) (X : List Char) :
    parseMembersAux (f + 1) (fieldChunk k v ++ X) =
      (match skipWs X with
       | [] => none
       | d :: r4 =>
         if d = ',' then
           match parseMembersAux f r4 with
           | some (ms, r) => some ((k, v) :: ms, r)
           | none => none
         else if d = rbraceC then some ([(k, v)], r4)
         else none) := by
  rw [fieldChunk_append]
  conv_lhs => unfold parseMembersAux
  rw [skipWs_cons_not (by decide), parseStringLit_of]
  try dsimp only
  rw [skipWs_cons_not (by decide)]
  try dsimp only
  rw [if_pos rfl, skipWs_cons_ws (by decide), skipWs_cons_not (by decide),
    parseStringLit_of]
  try dsimp only
  rfl

theorem parseMembersAux_join : ∀ (ps : List (String × String)) (f : Nat)
    (rest : List Char), ps ≠ [] →
    parseMembersAux (f + ps.length) (joinFields ps ++ '\n' :: rbraceC :: rest) =
      some (ps, rest) := by
  intro ps
  induction ps with
  | nil => intro f rest h; exact absurd rfl h
  | cons kv ps ih =>
    rcases kv with ⟨k, v⟩
    intro f rest _
    rcases ps with _ | ⟨kv2, ps'⟩
    · show parseMembersAux (f + 1) (fieldChunk k v ++ '\n' :: rbraceC :: rest) = _
      rw [parseMembersAux_member, skipWs_cons_ws (by decide),
        skipWs_cons_not (by decide)]
      try dsimp only
      rw [if_neg (by decide : ¬ (rbraceC = ',')), if_pos rfl]
    · show parseMembersAux (f + ((kv2 :: ps').length + 1))
        ((fieldChunk k v ++ fieldSep ++ joinFields (kv2 :: ps')) ++
          '\n' :: rbraceC :: rest) = _
      rw [List.append_assoc, List.append_assoc]
      rw [show (f + ((kv2 :: ps').length + 1)) = (f + (kv2 :: ps').length) + 1 from rfl]
      rw [parseMembersAux_member]
      rw [show (fieldSep ++ (joinFields (kv2 :: ps') ++ '\n' :: rbraceC :: rest) : List Char) =
        ',' :: ('\n' :: sp4 ++ (joinFields (kv2 :: ps') ++ '\n' :: rbraceC :: rest)) from rfl]
      have hsw : skipWs (',' :: ('\n' :: sp4 ++ (joinFields (kv2 :: ps') ++ '\n' :: rbraceC :: rest))) =
          ',' :: ('\n' :: sp4 ++ (joinFields (kv2 :: ps') ++ '\n' :: rbraceC :: rest)) :=
        skipWs_cons_not (by decide) _
      rw [hsw]
      try dsimp only
      rw [if_pos rfl]
      rw [parseMembersAux_congr (skipWs_indent (joinFields (kv2 :: ps') ++ '\n' :: rbraceC :: rest))]
      rw [ih f rest (by simp)]

theorem joinFields_cons_head (k v : String) (ps : List (String × String))
    (X : List Char) :
    ∃ T, joinFields ((k, v) :: ps) ++ X = quoteC :: T := by
  rcases ps with _ | ⟨kv2, ps'⟩
  · exact ⟨_, by rw [show joinFields [(k, v)] = fieldChunk k v from rfl, fieldChunk_append]⟩
  · exact ⟨escapeList k.toList ++ quoteC :: ':' :: ' ' :: quoteC ::
      (escapeList v.toList ++ quoteC :: (fieldSep ++ (joinFields (kv2 :: ps') ++ X))),
      by
        rw [show joinFields ((k, v) :: kv2 :: ps') =
          fieldChunk k v ++ fieldSep ++ joinFields (kv2 :: ps') from rfl,
          List.append_assoc, List.append_assoc, fieldChunk_append]⟩

theorem fieldChunk_length_pos (k v : String) : 1 ≤ (fieldChunk k v).length := by
  have h2 := congrArg List.length (fieldChunk_append k v [])
  simp only [List.length_append, List.length_cons, List.length_nil] at h2
  omega

theorem joinFields_length_ge : ∀ ps : List (String × String),
    ps.length ≤ (joinFields ps).length := by
  intro ps
  induction ps with
  | nil => simp [joinFields]
  | cons kv ps ih =>
    rcases kv with ⟨k, v⟩
    rcases ps with _ | ⟨kv2, ps'⟩
    · show 1 ≤ (fieldChunk k v).length
      exact fieldChunk_length_pos k v
    · show (kv2 :: ps').length + 1 ≤
        (fieldChunk k v ++ fieldSep ++ joinFields (kv2 :: ps')).length
      have h1 := fieldChunk_length_pos k v
      simp only [List.length_append]
      have : (fieldSep : List Char).length = 6 := rfl
      omega

theorem parseObj_config (c : TailscaleConfig) :
    parseObj (serializeConfigChars c ++ ['\n']) = some (configPairs c, ['\n']) := by
  have hser : serializeConfigChars c ++ ['\n'] =
      lbraceC :: ('\n' :: sp4 ++
        (joinFields (configPairs c) ++ '\n' :: rbraceC :: ['\n'])) := by
    simp [serializeConfigChars]
  rw [hser]
  unfold parseObj
  rw [skipWs_cons_not (by decide)]
  try dsimp only
  rw [if_pos rfl]
  obtain ⟨T, hT⟩ := joinFields_cons_head "name" c.name
    [("author", c.author), ("githubRepository", c.githubRepository),
     ("version", c.version), ("tailscaleVersion", c.tailscaleVersion),
     ("tailscaleSHA256", c.tailscaleSHA256), ("packageVersion", c.packageVersion),
     ("packageSHA256", c.packageSHA256), ("pluginDirectory", c.pluginDirectory),
     ("configDirectory", c.configDirectory), ("minver", c.minver)]
    ('\n' :: rbraceC :: ['\n'])
  have hjoin : joinFields (configPairs c) ++ '\n' :: rbraceC :: ['\n'] = quoteC :: T := hT
  have hsk : skipWs ('\n' :: sp4 ++ (joinFields (configPairs c) ++ '\n' :: rbraceC :: ['\n'])) =
      quoteC :: T := by
    rw [skipWs_indent, hjoin, skipWs_cons_not (by decide)]
  rw [hsk]
  try dsimp only
  rw [if_neg (by decide : ¬ (quoteC = rbraceC))]
  rw [parseMembersAux_congr
    (by rw [skipWs_indent] :
      skipWs ('\n' :: sp4 ++ (joinFields (configPairs c) ++ '\n' :: rbraceC :: ['\n'])) =
        skipWs (joinFields (configPairs c) ++ '\n' :: rbraceC :: ['\n']))]
  have hlen : 11 ≤ ('\n' :: sp4 ++
      (joinFields (configPairs c) ++ '\n' :: rbraceC :: ['\n'])).length + 1 := by
    have hj := joinFields_length_ge (configPairs c)
    have hcp : (configPairs c).length = 11 := rfl
    simp only [List.length_cons, List.length_append]
    omega
  obtain ⟨F, hF⟩ : ∃ F, ('\n' :: sp4 ++
      (joinFields (configPairs c) ++ '\n' :: rbraceC :: ['\n'])).length + 1 =
      F + (configPairs c).length :=
    ⟨('\n' :: sp4 ++ (joinFields (configPairs c) ++ '\n' :: rbraceC :: ['\n'])).length + 1 - 11,
     by rw [show (configPairs c).length = 11 from rfl]; omega⟩
  rw [hF]
  exact parseMembersAux_join (configPairs c) F ['\n'] (by simp [configPairs])

/-- C9: round-trip: serialising any record with `writeConfig`'s format
(4-space indentation, trailing newline) and parsing the resulting text with
`readConfig` yields a record equal in all eleven fields to the one written. -/
theorem claim_C9 (c : TailscaleConfig) :
    readConfig (writeConfigContent c) = some c := by
  unfold readConfig writeConfigContent
  rw [show (String.mk (serializeConfigChars c ++ ['\n'])).toList =
    serializeConfigChars c ++ ['\n'] from rfl]
  rw [parseObj_config]
  try dsimp only
  rw [show skipWs ['\n'] = [] from by decide, if_pos rfl]
  rfl

end TsUpdate
